import Mathlib

/-!
Verification development for the ECG denoising pipeline's coordinate-remapping
and interval-algebra engine (`ecg_pipeline/index_map.py` and
`ecg_pipeline/steps.py`).

Intervals are inclusive integer pairs; Python integers are modelled by `Int`.
The `while` loops of the projection operations advance a cursor `cur` that
strictly increases and stops once `cur > e`; they are embedded structurally
with a fuel argument equal to the number of remaining cursor positions
`(e + 1 - cur).toNat`, which bounds the iteration count, so the fueled
function is exactly the loop.
-/

namespace EcgPipeline

abbrev Interval := Int × Int

/-- A kept span `(input_start, input_end, output_start, output_end)`. -/
abbrev Span := Int × Int × Int × Int

/-- Stable insertion of an interval into a list sorted by start
(`list.sort(key=lambda x: x[0])` is a stable sort by the first component). -/
def insertByStart (p : Interval) : List Interval → List Interval
  | [] => [p]
  | q :: rest => if p.1 ≤ q.1 then p :: q :: rest else q :: insertByStart p rest

/-- Stable sort of intervals by their start component. -/
def sortByStart : List Interval → List Interval
  | [] => []
  | x :: xs => insertByStart x (sortByStart xs)

/-- The merge pass of `normalize_intervals`: current interval `(cs, ce)`,
merging any following interval whose start is at most `ce + 1`. -/
def normMergeLoop (cs ce : Int) : List Interval → List Interval
  | [] => [(cs, ce)]
  | (s, e) :: rest =>
      if s ≤ ce + 1 then normMergeLoop cs (max ce e) rest
      else (cs, ce) :: normMergeLoop s e rest

/-- Swap a reversed pair so that `start ≤ end`. -/
def swapPair (p : Interval) : Interval :=
  if p.1 > p.2 then (p.2, p.1) else (p.1, p.2)

/-- The clamp stage of `normalize_intervals`: drop intervals entirely outside
`[0, length-1]` and clamp the rest. -/
def clampStage (L : Int) (xs : List Interval) : List Interval :=
  (xs.filter (fun p => p.1 < L ∧ p.2 ≥ 0)).map (fun p => (max 0 p.1, min (L - 1) p.2))

/-- The merge stage of `normalize_intervals` (a no-op on an empty list). -/
def mergeStage : List Interval → List Interval
  | [] => []
  | (cs, ce) :: rest => normMergeLoop cs ce rest

/-- `normalize_intervals(intervals, length)`: swap reversed pairs, sort by
start, clamp to `[0, length-1]` when a length is given (dropping intervals
entirely outside), and merge touching or overlapping intervals. -/
def normalize_intervals (intervals : List Interval) (length : Option Int) : List Interval :=
  if intervals = [] then []
  else
    let xs := intervals.map swapPair
    let xs := sortByStart xs
    match length with
    | none => mergeStage xs
    | some L => mergeStage (clampStage L xs)

/-- The merge pass of `merge_intervals` with gap tolerance. -/
def gapMergeLoop (merge_gap cs ce : Int) : List Interval → List Interval
  | [] => [(cs, ce)]
  | (s, e) :: rest =>
      if s ≤ ce + merge_gap + 1 then gapMergeLoop merge_gap cs (max ce e) rest
      else (cs, ce) :: gapMergeLoop merge_gap s e rest

/-- `merge_intervals(intervals, merge_gap)`: sort by start and merge any two
consecutive intervals with `next.start ≤ prev.end + merge_gap + 1`. -/
def merge_intervals (intervals : List Interval) (merge_gap : Int) : List Interval :=
  if intervals = [] then []
  else
    match sortByStart intervals with
    | [] => []
    | (cs, ce) :: rest => gapMergeLoop merge_gap cs ce rest

/-- `clamp_intervals(intervals, length) = normalize_intervals(intervals, length)`. -/
def clamp_intervals (intervals : List Interval) (length : Int) : List Interval :=
  normalize_intervals intervals (some length)

/-- The loop of `invert_to_kept`: cursor `cur`, emitting `(cur, s-1)` before
each removed interval and finally `(cur, length-1)` if anything remains. -/
def invertLoop (length : Int) : Int → List Interval → List Interval
  | cur, [] => if cur < length then [(cur, length - 1)] else []
  | cur, (s, e) :: rest =>
      (if cur < s then [(cur, s - 1)] else []) ++ invertLoop length (e + 1) rest

/-- `invert_to_kept(removed, length)`: kept intervals covering `[0, length-1]`
outside the (normalized) removed intervals. -/
def invert_to_kept (removed : List Interval) (length : Int) : List Interval :=
  let removed := normalize_intervals removed (some length)
  if removed = [] then [(0, length - 1)]
  else invertLoop length 0 removed

/-- `IndexMap`: mapping between input and output after removing intervals,
stored as kept spans `(in_start, in_end, out_start, out_end)`. -/
structure IndexMap where
  kept : List Span
deriving DecidableEq, Repr

/-- The loop of `from_kept_ranges`, carrying the running output position. -/
def fromKeptLoop (out_pos : Int) : List Interval → List Span
  | [] => []
  | (s, e) :: rest =>
      let L := e - s + 1
      (s, e, out_pos, out_pos + L - 1) :: fromKeptLoop (out_pos + L) rest

/-- `IndexMap.from_kept_ranges`. -/
def IndexMap.from_kept_ranges (kept_in : List Interval) : IndexMap :=
  ⟨fromKeptLoop 0 kept_in⟩

/-- `IndexMap.from_removed_ranges`. -/
def IndexMap.from_removed_ranges (removed_in : List Interval) (in_len : Int) : IndexMap :=
  IndexMap.from_kept_ranges (invert_to_kept removed_in in_len)

/-- First kept span containing `cur` on the input side (the `for ... break`
scan in `project_intervals_input_to_output`). -/
def findContaining (kept : List Span) (cur : Int) : Option Span :=
  kept.find? (fun sp => decide (sp.1 ≤ cur) && decide (cur ≤ sp.2.1))

/-- First kept span whose input start is beyond `cur` (the `for ... break`
scan in the removed-region skip logic). -/
def findNextKept (kept : List Span) (cur : Int) : Option Span :=
  kept.find? (fun sp => decide (cur < sp.1))

/-- The `while cur <= e` loop of `project_intervals_input_to_output`, fueled
by the remaining cursor range. -/
def fwdLoopF (kept : List Span) (e : Int) : Nat → Int → List Interval
  | 0, _ => []
  | fuel + 1, cur =>
      if cur ≤ e then
        match findContaining kept cur with
        | some (si, ei, so, _) =>
            let chunk_end := min e ei
            (so + (cur - si), so + (chunk_end - si)) ::
              fwdLoopF kept e fuel (chunk_end + 1)
        | none =>
            match findNextKept kept cur with
            | some (si2, _, _, _) => fwdLoopF kept e fuel si2
            | none => []
      else []

/-- The `while` loop of `project_intervals_input_to_output` on one interval. -/
def fwdLoop (kept : List Span) (e cur : Int) : List Interval :=
  fwdLoopF kept e (e + 1 - cur).toNat cur

/-- Concatenation of the per-interval loop results (the shared `res` list). -/
def catMap (f : Interval → List Interval) : List Interval → List Interval
  | [] => []
  | p :: rest => f p ++ catMap f rest

/-- `IndexMap.project_intervals_input_to_output`. -/
def IndexMap.project_intervals_input_to_output (m : IndexMap)
    (intervals_in : List Interval) : List Interval :=
  if intervals_in = [] then []
  else normalize_intervals (catMap (fun p => fwdLoop m.kept p.2 p.1) intervals_in) none

/-- First kept span containing `cur` on the output side. -/
def findContainingOut (kept : List Span) (cur : Int) : Option Span :=
  kept.find? (fun sp => decide (sp.2.2.1 ≤ cur) && decide (cur ≤ sp.2.2.2))

/-- The `while cur <= e` loop of `project_intervals_output_to_input`, fueled
by the remaining cursor range.  A point outside every kept output span ends
the loop (`cur = e + 1` in the source). -/
def bwdLoopF (kept : List Span) (e : Int) : Nat → Int → List Interval
  | 0, _ => []
  | fuel + 1, cur =>
      if cur ≤ e then
        match findContainingOut kept cur with
        | some (si, _, so, eo) =>
            let chunk_end := min e eo
            (si + (cur - so), si + (chunk_end - so)) ::
              bwdLoopF kept e fuel (chunk_end + 1)
        | none => []
      else []

/-- The `while` loop of `project_intervals_output_to_input` on one interval. -/
def bwdLoop (kept : List Span) (e cur : Int) : List Interval :=
  bwdLoopF kept e (e + 1 - cur).toNat cur

/-- `IndexMap.project_intervals_output_to_input`. -/
def IndexMap.project_intervals_output_to_input (m : IndexMap)
    (intervals_out : List Interval) : List Interval :=
  if intervals_out = [] then []
  else normalize_intervals (catMap (fun p => bwdLoop m.kept p.2 p.1) intervals_out) none

/-- The inner chunk consumption of `compose`: build `(in_s, in_e, cs, ce)`
spans from the surviving chunks, advancing the offset by each chunk length. -/
def composeChunks (si : Int) : Int → List Interval → List Span
  | _, [] => []
  | off, (cs, ce) :: rest =>
      let L := ce - cs + 1
      (si + off, si + off + L - 1, cs, ce) :: composeChunks si (off + L) rest

/-- Stable insertion of a span into a list sorted by `(input_start, output_start)`. -/
def insertSpanLex (p : Span) : List Span → List Span
  | [] => [p]
  | q :: rest =>
      if p.1 < q.1 ∨ (p.1 = q.1 ∧ p.2.2.1 ≤ q.2.2.1) then p :: q :: rest
      else q :: insertSpanLex p rest

/-- Stable sort of spans by `(input_start, output_start)`
(`composed_kept.sort(key=lambda t: (t[0], t[2]))`). -/
def sortSpansLex : List Span → List Span
  | [] => []
  | x :: xs => insertSpanLex x (sortSpansLex xs)

/-- The final merge pass of `compose`: merge the previous span with the next
one when they are contiguous in both input and output space. -/
def composeMergeLoop (prev : Span) : List Span → List Span
  | [] => [prev]
  | seg :: rest =>
      if prev.2.1 + 1 = seg.1 ∧ prev.2.2.2 + 1 = seg.2.2.1 then
        composeMergeLoop (prev.1, seg.2.1, prev.2.2.1, seg.2.2.2) rest
      else prev :: composeMergeLoop seg rest

/-- The merged-list construction of `compose`. -/
def composeMerge : List Span → List Span
  | [] => []
  | seg :: rest => composeMergeLoop seg rest

/-- The per-span accumulation of `compose`: for each kept span of `self`,
project its output range `[so, eo]` through `other` and consume matching
input lengths from `si` onwards. -/
def composeSpansLoop (other : IndexMap) : List Span → List Span
  | [] => []
  | (si, _, so, eo) :: rest =>
      let to_c := other.project_intervals_input_to_output [(so, eo)]
      composeChunks si 0 to_c ++ composeSpansLoop other rest

/-- `IndexMap.compose`: apply `self : A → B` then `other : B → C`. -/
def IndexMap.compose (m other : IndexMap) : IndexMap :=
  ⟨composeMerge (sortSpansLex (composeSpansLoop other m.kept))⟩

/-- Python slice `x[s:e+1]` for `s ≥ 0` and `e ≥ -1` (the only shapes used by
`remove_intervals_and_build_map`, whose kept intervals satisfy them). -/
def pySlice {α : Type} (s e : Int) (x : List α) : List α :=
  (x.drop s.toNat).take (e + 1 - s).toNat

/-- Concatenation of the kept slices (`np.concatenate(parts)`). -/
def catSlices {α : Type} (x : List α) : List Interval → List α
  | [] => []
  | (s, e) :: rest => pySlice s e x ++ catSlices x rest

/-- `remove_intervals_and_build_map(x, removed)` from `steps.py`. -/
def remove_intervals_and_build_map {α : Type} (x : List α) (removed : List Interval) :
    List α × IndexMap :=
  let n : Int := x.length
  let removed := normalize_intervals removed (some n)
  let kept := invert_to_kept removed n
  if kept = [] then ([], IndexMap.from_kept_ranges [])
  else (catSlices x kept, IndexMap.from_kept_ranges kept)

/-! ### Basic facts about the span searches -/

theorem find?_split {α : Type} {p : α → Bool} {l : List α} {a : α}
    (h : l.find? p = some a) :
    ∃ l1 l2, l = l1 ++ a :: l2 ∧ ∀ x ∈ l1, p x = false := by
  induction l with
  | nil => simp [List.find?] at h
  | cons y ys ih =>
      rw [List.find?] at h
      rcases hy : p y with - | -
      · rw [hy] at h
        simp only [] at h
        obtain ⟨l1, l2, rfl, hl1⟩ := ih h
        exact ⟨y :: l1, l2, rfl, by
          intro x hx
          rcases List.mem_cons.mp hx with rfl | hx
          · exact hy
          · exact hl1 x hx⟩
      · rw [hy] at h
        simp only [Option.some.injEq] at h
        exact ⟨[], ys, by simp [h], by simp⟩

theorem findContaining_some {kept : List Span} {cur : Int} {sp : Span}
    (h : findContaining kept cur = some sp) :
    sp.1 ≤ cur ∧ cur ≤ sp.2.1 ∧ sp ∈ kept := by
  have h1 := List.find?_some h
  have h2 := List.mem_of_find?_eq_some h
  simp only [Bool.and_eq_true, decide_eq_true_eq] at h1
  exact ⟨h1.1, h1.2, h2⟩

theorem findContaining_none {kept : List Span} {cur : Int}
    (h : findContaining kept cur = none) :
    ∀ sp ∈ kept, ¬ (sp.1 ≤ cur ∧ cur ≤ sp.2.1) := by
  intro sp hsp
  have := List.find?_eq_none.mp h sp hsp
  simp only [Bool.and_eq_true, decide_eq_true_eq] at this
  tauto

theorem findNextKept_some {kept : List Span} {cur : Int} {sp : Span}
    (h : findNextKept kept cur = some sp) :
    cur < sp.1 ∧ sp ∈ kept := by
  have h1 := List.find?_some h
  have h2 := List.mem_of_find?_eq_some h
  simp only [decide_eq_true_eq] at h1
  exact ⟨h1, h2⟩

theorem findContainingOut_some {kept : List Span} {cur : Int} {sp : Span}
    (h : findContainingOut kept cur = some sp) :
    sp.2.2.1 ≤ cur ∧ cur ≤ sp.2.2.2 ∧ sp ∈ kept := by
  have h1 := List.find?_some h
  have h2 := List.mem_of_find?_eq_some h
  simp only [Bool.and_eq_true, decide_eq_true_eq] at h1
  exact ⟨h1.1, h1.2, h2⟩

/-! ### Fuel irrelevance and unfolding equations for the projection loops -/

theorem fwdLoopF_mono (kept : List Span) (e : Int) :
    ∀ f1 f2 cur, (e + 1 - cur).toNat ≤ f1 → (e + 1 - cur).toNat ≤ f2 →
      fwdLoopF kept e f1 cur = fwdLoopF kept e f2 cur := by
  intro f1
  induction f1 with
  | zero =>
      intro f2 cur h1 _
      have hc : ¬ cur ≤ e := by omega
      cases f2 with
      | zero => rfl
      | succ m => simp [fwdLoopF, hc]
  | succ n ih =>
      intro f2 cur h1 h2
      cases f2 with
      | zero =>
          have hc : ¬ cur ≤ e := by omega
          simp [fwdLoopF, hc]
      | succ m =>
          simp only [fwdLoopF]
          by_cases hc : cur ≤ e
          · simp only [hc, if_true]
            rcases hfind : findContaining kept cur with - | ⟨si, ei, so, eo⟩
            · rcases hnext : findNextKept kept cur with - | ⟨si2, ei2, so2, eo2⟩
              · rfl
              · have hlt := (findNextKept_some hnext).1
                exact ih m si2 (by omega) (by omega)
            · have hco := findContaining_some hfind
              have hle : cur ≤ min e ei := le_min hc hco.2.1
              have : fwdLoopF kept e n (min e ei + 1) = fwdLoopF kept e m (min e ei + 1) := by
                apply ih
                · have : min e ei ≤ e := min_le_left _ _
                  omega
                · have : min e ei ≤ e := min_le_left _ _
                  omega
              simp [this]
          · simp [hc]

theorem fwdLoop_stop {kept : List Span} {e cur : Int} (h : e < cur) :
    fwdLoop kept e cur = [] := by
  have : (e + 1 - cur).toNat = 0 := by omega
  rw [fwdLoop, this]
  rfl

theorem fwdLoop_found {kept : List Span} {e cur : Int} {si ei so eo : Int}
    (hc : cur ≤ e) (h : findContaining kept cur = some (si, ei, so, eo)) :
    fwdLoop kept e cur =
      (so + (cur - si), so + (min e ei - si)) :: fwdLoop kept e (min e ei + 1) := by
  have hn : (e + 1 - cur).toNat = ((e + 1 - cur).toNat - 1) + 1 := by omega
  rw [fwdLoop, hn]
  simp only [fwdLoopF, hc, if_true, h]
  rw [fwdLoop]
  congr 1
  apply fwdLoopF_mono
  · have hco := findContaining_some h
    have : min e ei ≤ e := min_le_left _ _
    have : cur ≤ min e ei := le_min hc hco.2.1
    omega
  · omega

theorem fwdLoop_skip {kept : List Span} {e cur : Int} {si2 ei2 so2 eo2 : Int}
    (hc : cur ≤ e) (h : findContaining kept cur = none)
    (hn : findNextKept kept cur = some (si2, ei2, so2, eo2)) :
    fwdLoop kept e cur = fwdLoop kept e si2 := by
  have hm : (e + 1 - cur).toNat = ((e + 1 - cur).toNat - 1) + 1 := by omega
  rw [fwdLoop, hm]
  simp only [fwdLoopF, hc, if_true, h, hn]
  rw [fwdLoop]
  apply fwdLoopF_mono
  · have := (findNextKept_some hn).1
    omega
  · omega

theorem fwdLoop_dead {kept : List Span} {e cur : Int}
    (hc : cur ≤ e) (h : findContaining kept cur = none)
    (hn : findNextKept kept cur = none) :
    fwdLoop kept e cur = [] := by
  have hm : (e + 1 - cur).toNat = ((e + 1 - cur).toNat - 1) + 1 := by omega
  rw [fwdLoop, hm]
  simp [fwdLoopF, hc, h, hn]

theorem bwdLoopF_mono (kept : List Span) (e : Int) :
    ∀ f1 f2 cur, (e + 1 - cur).toNat ≤ f1 → (e + 1 - cur).toNat ≤ f2 →
      bwdLoopF kept e f1 cur = bwdLoopF kept e f2 cur := by
  intro f1
  induction f1 with
  | zero =>
      intro f2 cur h1 _
      have hc : ¬ cur ≤ e := by omega
      cases f2 with
      | zero => rfl
      | succ m => simp [bwdLoopF, hc]
  | succ n ih =>
      intro f2 cur h1 h2
      cases f2 with
      | zero =>
          have hc : ¬ cur ≤ e := by omega
          simp [bwdLoopF, hc]
      | succ m =>
          simp only [bwdLoopF]
          by_cases hc : cur ≤ e
          · simp only [hc, if_true]
            rcases hfind : findContainingOut kept cur with - | ⟨si, ei, so, eo⟩
            · rfl
            · have hco := findContainingOut_some hfind
              have hle : cur ≤ min e eo := le_min hc hco.2.1
              have : bwdLoopF kept e n (min e eo + 1) = bwdLoopF kept e m (min e eo + 1) := by
                apply ih
                · have : min e eo ≤ e := min_le_left _ _
                  omega
                · have : min e eo ≤ e := min_le_left _ _
                  omega
              simp [this]
          · simp [hc]

theorem bwdLoop_stop {kept : List Span} {e cur : Int} (h : e < cur) :
    bwdLoop kept e cur = [] := by
  have : (e + 1 - cur).toNat = 0 := by omega
  rw [bwdLoop, this]
  rfl

theorem bwdLoop_found {kept : List Span} {e cur : Int} {si ei so eo : Int}
    (hc : cur ≤ e) (h : findContainingOut kept cur = some (si, ei, so, eo)) :
    bwdLoop kept e cur =
      (si + (cur - so), si + (min e eo - so)) :: bwdLoop kept e (min e eo + 1) := by
  have hn : (e + 1 - cur).toNat = ((e + 1 - cur).toNat - 1) + 1 := by omega
  rw [bwdLoop, hn]
  simp only [bwdLoopF, hc, if_true, h]
  rw [bwdLoop]
  congr 1
  apply bwdLoopF_mono
  · have hco := findContainingOut_some h
    have : min e eo ≤ e := min_le_left _ _
    have : cur ≤ min e eo := le_min hc hco.2.1
    omega
  · omega

theorem bwdLoop_dead {kept : List Span} {e cur : Int}
    (hc : cur ≤ e) (h : findContainingOut kept cur = none) :
    bwdLoop kept e cur = [] := by
  have hm : (e + 1 - cur).toNat = ((e + 1 - cur).toNat - 1) + 1 := by omega
  rw [bwdLoop, hm]
  simp [bwdLoopF, hc, h]

/-! ### The surviving sub-runs of an input interval

`chunkOf b1 b2 sp` is the translated image of the overlap of `[b1, b2]`
with the input side of the kept span `sp`, when that overlap is nonempty. -/

def chunkOf (b1 b2 : Int) (sp : Span) : Option Interval :=
  if max b1 sp.1 ≤ min b2 sp.2.1 then
    some (sp.2.2.1 + (max b1 sp.1 - sp.1), sp.2.2.1 + (min b2 sp.2.1 - sp.1))
  else none

/-- The translated images of the sub-runs of `[b1, b2]` surviving the kept
spans, listed in span order. -/
def survivingRuns (kept : List Span) (b1 b2 : Int) : List Interval :=
  kept.filterMap (chunkOf b1 b2)

theorem chunkOf_none_left {b1 b2 : Int} {sp : Span} (h : sp.2.1 < b1) :
    chunkOf b1 b2 sp = none := by
  have h1 : min b2 sp.2.1 < max b1 sp.1 :=
    lt_of_le_of_lt (min_le_right _ _) (lt_of_lt_of_le h (le_max_left _ _))
  simp [chunkOf, not_le.mpr h1]

theorem chunkOf_none_right {b1 b2 : Int} {sp : Span} (h : b2 < sp.1) :
    chunkOf b1 b2 sp = none := by
  have h1 : min b2 sp.2.1 < max b1 sp.1 :=
    lt_of_le_of_lt (min_le_left _ _) (lt_of_lt_of_le h (le_max_right _ _))
  simp [chunkOf, not_le.mpr h1]

theorem chunkOf_shift {b1 b1' b2 : Int} {sp : Span} (h1 : b1 ≤ b1') (h2 : b1' ≤ sp.1) :
    chunkOf b1 b2 sp = chunkOf b1' b2 sp := by
  rw [chunkOf, chunkOf, max_eq_right (le_trans h1 h2), max_eq_right h2]

theorem filterMap_chunk_nil {b1 b2 : Int} {l : List Span} (h : ∀ x ∈ l, x.2.1 < b1) :
    List.filterMap (chunkOf b1 b2) l = [] :=
  List.filterMap_eq_nil_iff.mpr (fun x hx => chunkOf_none_left (h x hx))

theorem filterMap_chunk_shift {b1 b1' b2 : Int} (h1 : b1 ≤ b1') {l : List Span}
    (h : ∀ y ∈ l, b1' ≤ y.1) :
    List.filterMap (chunkOf b1 b2) l = List.filterMap (chunkOf b1' b2) l := by
  induction l with
  | nil => rfl
  | cons y ys ihy =>
      simp only [List.filterMap_cons]
      rw [chunkOf_shift h1 (h y (by simp))]
      rw [ihy (fun z hz => h z (by simp [hz]))]

theorem survivingRuns_nil_of_lt {kept : List Span} {b1 b2 : Int} (h : b2 < b1) :
    survivingRuns kept b1 b2 = [] := by
  rw [survivingRuns, List.filterMap_eq_nil_iff]
  intro sp _
  have h1 : min b2 sp.2.1 < max b1 sp.1 :=
    lt_of_le_of_lt (min_le_left _ _) (lt_of_lt_of_le h (le_max_left _ _))
  simp [chunkOf, not_le.mpr h1]

theorem fwdLoop_eq_survivingRuns_fueled {kept : List Span}
    (hSorted : kept.Pairwise (fun a b => a.1 < b.1))
    (hDisj : kept.Pairwise (fun a b => a.2.1 < b.1)) (e : Int) :
    ∀ n cur, (e + 1 - cur).toNat ≤ n → fwdLoop kept e cur = survivingRuns kept cur e := by
  intro n
  induction n with
  | zero =>
      intro cur h
      have hc : e < cur := by omega
      rw [fwdLoop_stop hc, survivingRuns_nil_of_lt hc]
  | succ n ih =>
      intro cur h
      by_cases hc : cur ≤ e
      · rcases hfind : findContaining kept cur with - | ⟨si, ei, so, eo⟩
        · rcases hnext : findNextKept kept cur with - | ⟨si2, ei2, so2, eo2⟩
          · -- every span starts at or before `cur` and none contains it
            have hnil : survivingRuns kept cur e = [] := by
              apply filterMap_chunk_nil
              intro sp hsp
              have h1 := findContaining_none hfind sp hsp
              have h2 := List.find?_eq_none.mp hnext sp hsp
              simp only [decide_eq_true_eq] at h2
              omega
            rw [fwdLoop_dead hc hfind hnext, hnil]
          · -- skip to the next kept span
            rw [fwdLoop_skip hc hfind hnext]
            obtain ⟨l1, l2, hsplit, hl1⟩ := find?_split hnext
            have hlt : cur < si2 := (findNextKept_some hnext).1
            rw [ih si2 (by omega)]
            rw [hsplit] at hSorted ⊢
            rw [List.pairwise_append] at hSorted
            have hl2 : ∀ y ∈ l2, si2 < y.1 := by
              intro y hy
              exact (List.pairwise_cons.mp hSorted.2.1).1 y hy
            have hl1d : ∀ x ∈ l1, x.2.1 < cur := by
              intro x hx
              have hx1 := hl1 x hx
              simp only [decide_eq_false_iff_not, decide_eq_true_eq] at hx1
              have hx2 : x.1 ≤ cur := by omega
              have hx3 := findContaining_none hfind x (by rw [hsplit]; simp [hx])
              omega
            rw [survivingRuns, survivingRuns, List.filterMap_append, List.filterMap_append]
            rw [filterMap_chunk_nil hl1d,
              filterMap_chunk_nil (fun x hx => lt_trans (hl1d x hx) hlt)]
            simp only [List.filterMap_cons]
            rw [chunkOf_shift (le_of_lt hlt) (le_refl si2)]
            rw [filterMap_chunk_shift (le_of_lt hlt) (fun z hz => le_of_lt (hl2 z hz))]
        · -- a kept span contains `cur`
          have hco := findContaining_some hfind
          have hsi : si ≤ cur := hco.1
          have hei : cur ≤ ei := hco.2.1
          have hcur_ce : cur ≤ min e ei := le_min hc hei
          have hce_e : min e ei ≤ e := min_le_left _ _
          have hce_ei : min e ei ≤ ei := min_le_right _ _
          rw [fwdLoop_found hc hfind]
          obtain ⟨l1, l2, hsplit, hl1⟩ := find?_split hfind
          rw [hsplit] at hDisj
          rw [List.pairwise_append] at hDisj
          have hl1d : ∀ x ∈ l1, x.2.1 < si :=
            fun x hx => hDisj.2.2 x hx (si, ei, so, eo) (by simp)
          have hl2d : ∀ y ∈ l2, ei < y.1 := by
            intro y hy
            exact (List.pairwise_cons.mp hDisj.2.1).1 y hy
          rw [ih (min e ei + 1) (by omega)]
          rw [hsplit]
          rw [survivingRuns, survivingRuns, List.filterMap_append, List.filterMap_append]
          rw [filterMap_chunk_nil (fun x hx => lt_of_lt_of_le (hl1d x hx) hsi),
            filterMap_chunk_nil (fun x hx => by have := hl1d x hx; omega)]
          simp only [List.filterMap_cons]
          have hchunk : chunkOf cur e (si, ei, so, eo) =
              some (so + (cur - si), so + (min e ei - si)) := by
            rw [chunkOf]
            simp only []
            rw [max_eq_left hsi, if_pos hcur_ce]
          have hchunk2 : chunkOf (min e ei + 1) e (si, ei, so, eo) = none := by
            rw [chunkOf, if_neg]
            simp only []
            rw [max_eq_left (by omega : si ≤ min e ei + 1)]
            omega
          rw [hchunk, hchunk2]
          rw [filterMap_chunk_shift (by omega : cur ≤ min e ei + 1)
            (fun z hz => by have := hl2d z hz; omega)]
          simp
      · rw [fwdLoop_stop (by omega), survivingRuns_nil_of_lt (by omega)]

/-- On lists of kept spans that are sorted by input start with pairwise
disjoint input ranges, the forward projection loop computes exactly the
translated surviving sub-runs. -/
theorem fwdLoop_eq_survivingRuns {kept : List Span}
    (hSorted : kept.Pairwise (fun a b => a.1 < b.1))
    (hDisj : kept.Pairwise (fun a b => a.2.1 < b.1)) (e cur : Int) :
    fwdLoop kept e cur = survivingRuns kept cur e :=
  fwdLoop_eq_survivingRuns_fueled hSorted hDisj e (e + 1 - cur).toNat cur (le_refl _)

/-! ### Normalization of exact tilings -/

/-- `covers a xs b`: the intervals of `xs` tile `[a, b]` exactly, in order,
each nonempty and starting right after the previous one ends. -/
def covers : Int → List Interval → Int → Prop
  | a, [], b => b = a - 1
  | a, (s, e) :: rest, b => s = a ∧ s ≤ e ∧ covers (e + 1) rest b

theorem covers_le {xs : List Interval} : ∀ {a b : Int}, covers a xs b → a - 1 ≤ b := by
  induction xs with
  | nil => intro a b h; rw [covers] at h; omega
  | cons p rest ih =>
      intro a b h
      obtain ⟨h1, h2, h3⟩ := h
      have := ih h3
      omega

theorem covers_wf {xs : List Interval} : ∀ {a b : Int}, covers a xs b →
    ∀ p ∈ xs, p.1 ≤ p.2 := by
  induction xs with
  | nil => intro a b _ p hp; cases hp
  | cons q rest ih =>
      intro a b h p hp
      obtain ⟨h1, h2, h3⟩ := h
      rcases List.mem_cons.mp hp with rfl | hp
      · exact h2
      · exact ih h3 p hp

theorem covers_chain {xs : List Interval} : ∀ {a b : Int}, covers a xs b →
    List.Chain' (fun p q => p.1 ≤ q.1) xs := by
  induction xs with
  | nil => intro a b _; exact List.chain'_nil
  | cons q rest ih =>
      intro a b h
      cases rest with
      | nil => simp
      | cons r rest' =>
          obtain ⟨h1, h2, h3⟩ := h
          rw [List.chain'_cons]
          refine ⟨?_, ih h3⟩
          obtain ⟨h4, h5, h6⟩ := h3
          omega

theorem map_swap_id {xs : List Interval} (h : ∀ p ∈ xs, p.1 ≤ p.2) :
    xs.map swapPair = xs := by
  induction xs with
  | nil => rfl
  | cons q rest ih =>
      rw [List.map_cons, ih (fun p hp => h p (by simp [hp]))]
      have hq := h q (by simp)
      rw [swapPair, if_neg (by omega)]

theorem insertByStart_head {x y : Interval} {ys : List Interval} (h : x.1 ≤ y.1) :
    insertByStart x (y :: ys) = x :: y :: ys := by
  rw [insertByStart, if_pos h]

theorem sortByStart_id {xs : List Interval}
    (h : List.Chain' (fun p q => p.1 ≤ q.1) xs) : sortByStart xs = xs := by
  induction xs with
  | nil => rfl
  | cons q rest ih =>
      rw [sortByStart, ih h.tail]
      cases rest with
      | nil => rfl
      | cons r rest' => exact insertByStart_head (List.chain'_cons.mp h).1

theorem normMergeLoop_covers {rest : List Interval} : ∀ {cs ce b : Int},
    covers (ce + 1) rest b → normMergeLoop cs ce rest = [(cs, b)] := by
  induction rest with
  | nil =>
      intro cs ce b h
      rw [covers] at h
      rw [normMergeLoop, h]
      ring_nf
  | cons q rest' ih =>
      intro cs ce b h
      obtain ⟨h1, h2, h3⟩ := h
      obtain ⟨s, e⟩ := q
      simp only [] at h1 h2
      rw [normMergeLoop, if_pos (by omega : s ≤ ce + 1)]
      have hmax : max ce e = e := max_eq_right (by omega)
      rw [hmax]
      exact ih h3

theorem covers_normalize {xs : List Interval} {a b : Int}
    (h : covers a xs b) (hne : xs ≠ []) :
    normalize_intervals xs none = [(a, b)] := by
  rw [normalize_intervals, if_neg hne]
  simp only [map_swap_id (covers_wf h), sortByStart_id (covers_chain h)]
  cases xs with
  | nil => exact absurd rfl hne
  | cons q rest =>
      obtain ⟨s, e⟩ := q
      obtain ⟨h1, h2, h3⟩ := h
      subst h1
      rw [mergeStage]
      exact normMergeLoop_covers h3

theorem normalize_nil_none : normalize_intervals [] none = [] := rfl

theorem normalize_singleton {a b : Int} (h : a ≤ b) :
    normalize_intervals [(a, b)] none = [(a, b)] := by
  apply covers_normalize (a := a) (b := b)
  · exact ⟨rfl, h, by rw [covers]; ring⟩
  · simp

/-- Forward projection of a single interval, expressed via the surviving
sub-runs. -/
theorem project_single_runs {m : IndexMap}
    (hSorted : m.kept.Pairwise (fun a b => a.1 < b.1))
    (hDisj : m.kept.Pairwise (fun a b => a.2.1 < b.1)) (b1 b2 : Int) :
    m.project_intervals_input_to_output [(b1, b2)] =
      normalize_intervals (survivingRuns m.kept b1 b2) none := by
  rw [IndexMap.project_intervals_input_to_output, if_neg (by simp)]
  rw [catMap, catMap, List.append_nil]
  rw [fwdLoop_eq_survivingRuns hSorted hDisj]

/-! ### Counting kept input points of a span list -/

/-- Number of kept input points strictly below `t`. -/
def belowCount : List Span → Int → Int
  | [], _ => 0
  | (si, ei, _, _) :: rest, t => max 0 (min ei (t - 1) - si + 1) + belowCount rest t

/-- Number of kept input points inside `[b1, b2]`. -/
def keptCount : List Span → Int → Int → Int
  | [], _, _ => 0
  | (si, ei, _, _) :: rest, b1, b2 =>
      max 0 (min ei b2 - max b1 si + 1) + keptCount rest b1 b2

theorem belowCount_nonneg (l : List Span) (t : Int) : 0 ≤ belowCount l t := by
  induction l with
  | nil => simp [belowCount]
  | cons sp rest ih =>
      obtain ⟨si, ei, so, eo⟩ := sp
      rw [belowCount]
      have : (0 : Int) ≤ max 0 (min ei (t - 1) - si + 1) := le_max_left _ _
      omega

theorem keptCount_nonneg (l : List Span) (b1 b2 : Int) : 0 ≤ keptCount l b1 b2 := by
  induction l with
  | nil => simp [keptCount]
  | cons sp rest ih =>
      obtain ⟨si, ei, so, eo⟩ := sp
      rw [keptCount]
      have : (0 : Int) ≤ max 0 (min ei b2 - max b1 si + 1) := le_max_left _ _
      omega

theorem belowCount_split {l : List Span} : ∀ {b1 b2 : Int}, b1 ≤ b2 + 1 →
    belowCount l (b2 + 1) = belowCount l b1 + keptCount l b1 b2 := by
  induction l with
  | nil => intro b1 b2 _; simp [belowCount, keptCount]
  | cons sp rest ih =>
      intro b1 b2 hb
      obtain ⟨si, ei, so, eo⟩ := sp
      rw [belowCount, belowCount, keptCount, ih hb]
      have harith : max 0 (min ei (b2 + 1 - 1) - si + 1) =
          max 0 (min ei (b1 - 1) - si + 1) + max 0 (min ei b2 - max b1 si + 1) := by
        simp only [min_def, max_def]
        split_ifs <;> omega
      omega

theorem belowCount_zero {l : List Span} {b1 : Int} (h : ∀ sp ∈ l, b1 ≤ sp.1) :
    belowCount l b1 = 0 := by
  induction l with
  | nil => rfl
  | cons sp rest ih =>
      obtain ⟨si, ei, so, eo⟩ := sp
      rw [belowCount, ih (fun q hq => h q (by simp [hq]))]
      have hsp := h (si, ei, so, eo) (by simp)
      simp only [] at hsp
      have : max 0 (min ei (b1 - 1) - si + 1) = 0 := by
        simp only [min_def, max_def]
        split_ifs <;> omega
      omega

theorem keptCount_zero_right {l : List Span} {b1 b2 : Int} (h : ∀ sp ∈ l, b2 < sp.1) :
    keptCount l b1 b2 = 0 := by
  induction l with
  | nil => rfl
  | cons sp rest ih =>
      obtain ⟨si, ei, so, eo⟩ := sp
      rw [keptCount, ih (fun q hq => h q (by simp [hq]))]
      have hsp := h (si, ei, so, eo) (by simp)
      simp only [] at hsp
      have : max 0 (min ei b2 - max b1 si + 1) = 0 := by
        simp only [min_def, max_def]
        split_ifs <;> omega
      omega

theorem keptCount_zero_rev {l : List Span} {b1 b2 : Int} (h : b2 < b1) :
    keptCount l b1 b2 = 0 := by
  induction l with
  | nil => rfl
  | cons sp rest ih =>
      obtain ⟨si, ei, so, eo⟩ := sp
      rw [keptCount, ih]
      have : max 0 (min ei b2 - max b1 si + 1) = 0 := by
        simp only [min_def, max_def]
        split_ifs <;> omega
      omega

theorem keptCount_shift {l : List Span} {b1 b1' b2 : Int} (h1 : b1 ≤ b1')
    (h : ∀ sp ∈ l, b1' ≤ sp.1) :
    keptCount l b1 b2 = keptCount l b1' b2 := by
  induction l with
  | nil => rfl
  | cons sp rest ih =>
      obtain ⟨si, ei, so, eo⟩ := sp
      rw [keptCount, keptCount, ih (fun q hq => h q (by simp [hq]))]
      have hsp := h (si, ei, so, eo) (by simp)
      simp only [] at hsp
      have : max b1 si = max b1' si := by
        rw [max_eq_right (by omega), max_eq_right (by omega)]
      rw [this]

theorem keptCount_le {l : List Span} (hDisj : l.Pairwise (fun a b => a.2.1 < b.1)) :
    ∀ {b1 b2 : Int}, b1 ≤ b2 + 1 → keptCount l b1 b2 ≤ b2 + 1 - b1 := by
  induction l with
  | nil => intro b1 b2 hb; simp [keptCount]; omega
  | cons sp rest ih =>
      intro b1 b2 hb
      obtain ⟨si, ei, so, eo⟩ := sp
      have hrest : ∀ q ∈ rest, ei < q.1 := (List.pairwise_cons.mp hDisj).1
      have hpw := (List.pairwise_cons.mp hDisj).2
      rw [keptCount]
      by_cases hcase : ei < b1
      · have hh : max 0 (min ei b2 - max b1 si + 1) = 0 := by
          simp only [min_def, max_def]
          split_ifs <;> omega
        have := ih hpw hb
        omega
      · by_cases hcase2 : ei ≤ b2
        · have hshift : keptCount rest b1 b2 = keptCount rest (ei + 1) b2 :=
            keptCount_shift (by omega) (fun q hq => by have := hrest q hq; omega)
          have hrec : keptCount rest (ei + 1) b2 ≤ b2 + 1 - (ei + 1) :=
            ih hpw (by omega)
          have hh : max 0 (min ei b2 - max b1 si + 1) ≤ ei - b1 + 1 := by
            simp only [min_def, max_def]
            split_ifs <;> omega
          omega
        · have hzero : keptCount rest b1 b2 = 0 :=
            keptCount_zero_right (fun q hq => by have := hrest q hq; omega)
          have hh : max 0 (min ei b2 - max b1 si + 1) ≤ b2 + 1 - b1 := by
            simp only [min_def, max_def]
            split_ifs <;> omega
          omega

theorem filterMap_chunk_nil_right {b1 b2 : Int} {l : List Span}
    (h : ∀ x ∈ l, b2 < x.1) :
    List.filterMap (chunkOf b1 b2) l = [] :=
  List.filterMap_eq_nil_iff.mpr (fun x hx => chunkOf_none_right (h x hx))

/-- Equal-length condition for a single span. -/
def spanWF (sp : Span) : Prop :=
  sp.1 ≤ sp.2.1 ∧ sp.2.1 - sp.1 = sp.2.2.2 - sp.2.2.1

/-- The output starts of the spans follow the running cursor `c`
(each span's output start continues where the previous output end left off). -/
def outFrom : Int → List Span → Prop
  | _, [] => True
  | c, (_, _, so, eo) :: rest => so = c ∧ outFrom (eo + 1) rest

/-- Key structure lemma: on a well-formed span list whose outputs tile from
`c`, the surviving runs of `[b1, b2]` tile exactly the output range from
`c + belowCount l b1` of length `keptCount l b1 b2`. -/
theorem survivingRuns_covers {l : List Span} : ∀ {c b1 b2 : Int},
    (∀ sp ∈ l, spanWF sp) →
    l.Pairwise (fun a b => a.2.1 < b.1) →
    outFrom c l →
    covers (c + belowCount l b1) (survivingRuns l b1 b2)
      (c + belowCount l b1 + keptCount l b1 b2 - 1) := by
  induction l with
  | nil =>
      intro c b1 b2 _ _ _
      rw [belowCount, keptCount, survivingRuns, List.filterMap_nil, covers]
      ring
  | cons sp rest ih =>
      intro c b1 b2 hWF hDisj hOut
      obtain ⟨si, ei, so, eo⟩ := sp
      have hwf : spanWF (si, ei, so, eo) := hWF _ (by simp)
      obtain ⟨hsiei, hlen⟩ := hwf
      simp only [] at hsiei hlen
      have hrest : ∀ q ∈ rest, ei < q.1 := (List.pairwise_cons.mp hDisj).1
      have hpw := (List.pairwise_cons.mp hDisj).2
      obtain ⟨hso, hOut'⟩ := hOut
      by_cases hb : b1 ≤ b2
      · by_cases hcase : ei < b1
        · -- head entirely below the query range
          rw [survivingRuns, List.filterMap_cons,
            chunkOf_none_left (show (si, ei, so, eo).2.1 < b1 from hcase)]
          have hrec := @ih (eo + 1) b1 b2
            (fun q hq => hWF q (by simp [hq])) hpw hOut'
          rw [survivingRuns] at hrec
          rw [belowCount, keptCount]
          convert hrec using 1 <;> omega
        · by_cases hcase2 : b2 < si
          · -- head (and hence the whole list) above the query range
            rw [survivingRuns, List.filterMap_cons,
              chunkOf_none_right (show b2 < (si, ei, so, eo).1 from hcase2)]
            rw [filterMap_chunk_nil_right (fun q hq => by have := hrest q hq; omega)]
            have hzero : keptCount rest b1 b2 = 0 :=
              keptCount_zero_right (fun q hq => by have := hrest q hq; omega)
            rw [belowCount, keptCount, hzero, covers]
            omega
          · -- head overlaps the query range
            have hover : max b1 (si, ei, so, eo).1 ≤ min b2 (si, ei, so, eo).2.1 := by
              simp only []
              omega
            have hchunk : chunkOf b1 b2 (si, ei, so, eo) =
                some (so + (max b1 si - si), so + (min b2 ei - si)) := by
              rw [chunkOf, if_pos hover]
            have hbelow0 : belowCount rest b1 = 0 :=
              belowCount_zero (fun q hq => by have := hrest q hq; omega)
            rw [survivingRuns, List.filterMap_cons, hchunk, covers]
            by_cases hcase3 : ei ≤ b2
            · -- the head span ends inside the query range
              have hrec := @ih (eo + 1) b1 b2
                (fun q hq => hWF q (by simp [hq])) hpw hOut'
              rw [survivingRuns] at hrec
              refine ⟨by rw [belowCount]; omega, by omega, ?_⟩
              rw [belowCount, keptCount]
              convert hrec using 1 <;> omega
            · -- the head span extends past the query range
              rw [filterMap_chunk_nil_right (fun q hq => by have := hrest q hq; omega)]
              have hzero : keptCount rest b1 b2 = 0 :=
                keptCount_zero_right (fun q hq => by have := hrest q hq; omega)
              refine ⟨by rw [belowCount]; omega, by omega, ?_⟩
              rw [covers, belowCount, keptCount, hzero]
              omega
      · -- empty query range
        rw [survivingRuns_nil_of_lt (by omega), keptCount_zero_rev (by omega), covers]
        ring

/-! ### Validity predicates for the Index Map data model -/

/-- Every span has a nonempty input side of the same length as its output side. -/
def spansWFB : List Span → Bool
  | [] => true
  | (si, ei, so, eo) :: rest =>
      (decide (si ≤ ei) && decide (ei - si = eo - so)) && spansWFB rest

/-- Equal input-side and output-side lengths only. -/
def eqLensB : List Span → Bool
  | [] => true
  | (si, ei, so, eo) :: rest => decide (ei - si = eo - so) && eqLensB rest

/-- Consecutive spans are disjoint in input space (given input sortedness). -/
def inputChainB : List Span → Bool
  | [] => true
  | [_] => true
  | a :: b :: rest => decide (a.2.1 < b.1) && inputChainB (b :: rest)

/-- Consecutive spans are sorted ascending by input start and output start
simultaneously. -/
def bothSortedB : List Span → Bool
  | [] => true
  | [_] => true
  | a :: b :: rest =>
      (decide (a.1 < b.1) && decide (a.2.2.1 < b.2.2.1)) && bothSortedB (b :: rest)

/-- Output starts follow a running cursor: the first output start is `c` and
each following one continues right after the previous output end. -/
def outFromB : Int → List Span → Bool
  | _, [] => true
  | c, (_, _, so, eo) :: rest => decide (so = c) && outFromB (eo + 1) rest

/-- The data-model invariant of an Index Map: nonempty equal-length kept
spans, sorted and disjoint on the input side, whose output sides exactly
partition `[0, Lout - 1]` in order. -/
def IndexMap.Valid (m : IndexMap) : Prop :=
  spansWFB m.kept = true ∧ inputChainB m.kept = true ∧ outFromB 0 m.kept = true

/-- The kept-span invariant exactly as the specification words it: sorted
ascending by input and output starts simultaneously, equal lengths, pairwise
non-overlapping input sides, and output sides exactly partitioning
`[0, Lout - 1]` (output starts tile from 0 with no gaps). -/
def IndexMap.KeptInvariant (m : IndexMap) : Prop :=
  bothSortedB m.kept = true ∧ eqLensB m.kept = true ∧
    inputChainB m.kept = true ∧ outFromB 0 m.kept = true

instance (m : IndexMap) : Decidable m.Valid :=
  inferInstanceAs (Decidable (spansWFB m.kept = true ∧ inputChainB m.kept = true ∧
    outFromB 0 m.kept = true))

instance (m : IndexMap) : Decidable m.KeptInvariant :=
  inferInstanceAs (Decidable (bothSortedB m.kept = true ∧ eqLensB m.kept = true ∧
    inputChainB m.kept = true ∧ outFromB 0 m.kept = true))

theorem spansWFB_mem {l : List Span} (h : spansWFB l = true) : ∀ sp ∈ l, spanWF sp := by
  induction l with
  | nil => intro sp hsp; cases hsp
  | cons a rest ih =>
      obtain ⟨si, ei, so, eo⟩ := a
      rw [spansWFB, Bool.and_eq_true, Bool.and_eq_true] at h
      intro sp hsp
      rcases List.mem_cons.mp hsp with rfl | hsp
      · exact ⟨decide_eq_true_eq.mp h.1.1, decide_eq_true_eq.mp h.1.2⟩
      · exact ih h.2 sp hsp

theorem spansWFB_tail {a : Span} {l : List Span} (h : spansWFB (a :: l) = true) :
    spansWFB l = true := by
  obtain ⟨si, ei, so, eo⟩ := a
  rw [spansWFB, Bool.and_eq_true] at h
  exact h.2

theorem eqLensB_mem {l : List Span} (h : eqLensB l = true) :
    ∀ sp ∈ l, sp.2.1 - sp.1 = sp.2.2.2 - sp.2.2.1 := by
  induction l with
  | nil => intro sp hsp; cases hsp
  | cons a rest ih =>
      obtain ⟨si, ei, so, eo⟩ := a
      rw [eqLensB, Bool.and_eq_true] at h
      intro sp hsp
      rcases List.mem_cons.mp hsp with rfl | hsp
      · exact decide_eq_true_eq.mp h.1
      · exact ih h.2 sp hsp

theorem eqLensB_tail {a : Span} {l : List Span} (h : eqLensB (a :: l) = true) :
    eqLensB l = true := by
  obtain ⟨si, ei, so, eo⟩ := a
  rw [eqLensB, Bool.and_eq_true] at h
  exact h.2

theorem inputChainB_tail {a : Span} {l : List Span} (h : inputChainB (a :: l) = true) :
    inputChainB l = true := by
  cases l with
  | nil => rfl
  | cons b rest =>
      rw [inputChainB, Bool.and_eq_true] at h
      exact h.2

theorem inputChainB_head {a b : Span} {l : List Span}
    (h : inputChainB (a :: b :: l) = true) : a.2.1 < b.1 := by
  rw [inputChainB, Bool.and_eq_true] at h
  exact decide_eq_true_eq.mp h.1

theorem bothSortedB_tail {a : Span} {l : List Span} (h : bothSortedB (a :: l) = true) :
    bothSortedB l = true := by
  cases l with
  | nil => rfl
  | cons b rest =>
      rw [bothSortedB, Bool.and_eq_true] at h
      exact h.2

theorem bothSortedB_head {a b : Span} {l : List Span}
    (h : bothSortedB (a :: b :: l) = true) : a.1 < b.1 ∧ a.2.2.1 < b.2.2.1 := by
  rw [bothSortedB, Bool.and_eq_true, Bool.and_eq_true] at h
  exact ⟨decide_eq_true_eq.mp h.1.1, decide_eq_true_eq.mp h.1.2⟩

theorem outFromB_tail {a : Span} {l : List Span} {c : Int}
    (h : outFromB c (a :: l) = true) : a.2.2.1 = c ∧ outFromB (a.2.2.2 + 1) l = true := by
  obtain ⟨si, ei, so, eo⟩ := a
  rw [outFromB, Bool.and_eq_true] at h
  exact ⟨decide_eq_true_eq.mp h.1, h.2⟩

theorem outFromB_outFrom {l : List Span} : ∀ {c : Int}, outFromB c l = true → outFrom c l := by
  induction l with
  | nil => intro c _; trivial
  | cons a rest ih =>
      intro c h
      obtain ⟨si, ei, so, eo⟩ := a
      obtain ⟨h1, h2⟩ := outFromB_tail h
      exact ⟨h1, ih h2⟩

theorem bothSorted_head_all {l : List Span} : ∀ {a : Span},
    bothSortedB (a :: l) = true → ∀ y ∈ l, a.1 < y.1 ∧ a.2.2.1 < y.2.2.1 := by
  induction l with
  | nil => intro a _ y hy; cases hy
  | cons b rest ih =>
      intro a h y hy
      have hab := bothSortedB_head h
      rcases List.mem_cons.mp hy with rfl | hy
      · exact hab
      · have := ih (bothSortedB_tail h) y hy
        exact ⟨by omega, by omega⟩

theorem bothSorted_pairwise {l : List Span} (h : bothSortedB l = true) :
    l.Pairwise (fun a b => a.1 < b.1) := by
  induction l with
  | nil => exact List.Pairwise.nil
  | cons a rest ih =>
      rw [List.pairwise_cons]
      exact ⟨fun y hy => (bothSorted_head_all h y hy).1, ih (bothSortedB_tail h)⟩

theorem bothSorted_inputChain_head_all {l : List Span} : ∀ {a : Span},
    bothSortedB (a :: l) = true → inputChainB (a :: l) = true →
    ∀ y ∈ l, a.2.1 < y.1 := by
  intro a hbs hic y hy
  cases l with
  | nil => cases hy
  | cons b rest =>
      have hab := inputChainB_head hic
      rcases List.mem_cons.mp hy with rfl | hy
      · exact hab
      · have := (bothSorted_head_all (bothSortedB_tail hbs) y hy).1
        omega

theorem bothSorted_inputChain_pairwise {l : List Span}
    (hbs : bothSortedB l = true) (hic : inputChainB l = true) :
    l.Pairwise (fun a b => a.2.1 < b.1) := by
  induction l with
  | nil => exact List.Pairwise.nil
  | cons a rest ih =>
      rw [List.pairwise_cons]
      exact ⟨bothSorted_inputChain_head_all hbs hic,
        ih (bothSortedB_tail hbs) (inputChainB_tail hic)⟩

theorem inputChain_head_all {l : List Span} : ∀ {a : Span},
    (∀ sp ∈ l, sp.1 ≤ sp.2.1) → inputChainB (a :: l) = true →
    ∀ y ∈ l, a.2.1 < y.1 := by
  induction l with
  | nil => intro a _ _ y hy; cases hy
  | cons b rest ih =>
      intro a hlb hc y hy
      have hab : a.2.1 < b.1 := inputChainB_head hc
      rcases List.mem_cons.mp hy with rfl | hy
      · exact hab
      · have hbe : b.1 ≤ b.2.1 := hlb b (by simp)
        have := ih (fun sp h => hlb sp (by simp [h])) (inputChainB_tail hc) y hy
        omega

theorem inputChain_pairwise {l : List Span} (hlb : ∀ sp ∈ l, sp.1 ≤ sp.2.1)
    (hc : inputChainB l = true) : l.Pairwise (fun a b => a.2.1 < b.1) := by
  induction l with
  | nil => exact List.Pairwise.nil
  | cons a rest ih =>
      rw [List.pairwise_cons]
      refine ⟨inputChain_head_all (fun sp h => hlb sp (by simp [h])) hc, ?_⟩
      exact ih (fun sp h => hlb sp (by simp [h])) (inputChainB_tail hc)

theorem pairwise_sorted_of_wf {l : List Span} (hlb : ∀ sp ∈ l, sp.1 ≤ sp.2.1)
    (hd : l.Pairwise (fun a b => a.2.1 < b.1)) :
    l.Pairwise (fun a b => a.1 < b.1) := by
  induction l with
  | nil => exact List.Pairwise.nil
  | cons a rest ih =>
      rw [List.pairwise_cons] at hd ⊢
      refine ⟨fun y hy => ?_, ih (fun sp h => hlb sp (by simp [h])) hd.2⟩
      have h1 := hlb a (by simp)
      have h2 := hd.1 y hy
      omega

theorem outFrom_lb {l : List Span} : ∀ {c : Int},
    (∀ sp ∈ l, spanWF sp) → outFromB c l = true → ∀ y ∈ l, c ≤ y.2.2.1 := by
  induction l with
  | nil => intro c _ _ y hy; cases hy
  | cons a rest ih =>
      intro c hWF h y hy
      obtain ⟨h1, h2⟩ := outFromB_tail h
      rcases List.mem_cons.mp hy with rfl | hy
      · omega
      · have hw := hWF a (by simp)
        obtain ⟨hw1, hw2⟩ := hw
        have := ih (fun sp h => hWF sp (by simp [h])) h2 y hy
        omega

theorem out_pairwise {l : List Span} : ∀ {c : Int},
    (∀ sp ∈ l, spanWF sp) → outFromB c l = true →
    l.Pairwise (fun a b => a.2.2.2 < b.2.2.1) := by
  induction l with
  | nil => intro c _ _; exact List.Pairwise.nil
  | cons a rest ih =>
      intro c hWF h
      obtain ⟨h1, h2⟩ := outFromB_tail h
      rw [List.pairwise_cons]
      refine ⟨fun y hy => ?_, ih (fun sp h => hWF sp (by simp [h])) h2⟩
      have := outFrom_lb (fun sp h => hWF sp (by simp [h])) h2 y hy
      omega

/-- Simultaneous ascending sortedness follows from well-formedness, the
input chain, and the output tiling. -/
theorem bothSorted_of_wf {l : List Span} : ∀ {c : Int}, spansWFB l = true →
    inputChainB l = true → outFromB c l = true → bothSortedB l = true := by
  induction l with
  | nil => intro c _ _ _; rfl
  | cons a rest ih =>
      intro c hwf' hic' hout'
      obtain ⟨h1, h2⟩ := outFromB_tail hout'
      cases rest with
      | nil => rfl
      | cons b rest' =>
          rw [bothSortedB, Bool.and_eq_true, Bool.and_eq_true]
          have hbtail := ih (spansWFB_tail hwf') (inputChainB_tail hic') h2
          obtain ⟨hb1, hb2⟩ := outFromB_tail h2
          obtain ⟨hwa1, hwa2⟩ := spansWFB_mem hwf' a (by simp)
          obtain ⟨hwb1, hwb2⟩ := spansWFB_mem hwf' b (by simp)
          have hchain := inputChainB_head (a := a) (b := b) hic'
          exact ⟨⟨decide_eq_true_eq.mpr (by omega),
            decide_eq_true_eq.mpr (by omega)⟩, hbtail⟩

theorem eqLensB_of_wf {l : List Span} (h : spansWFB l = true) : eqLensB l = true := by
  induction l with
  | nil => rfl
  | cons a rest ih =>
      obtain ⟨si, ei, so, eo⟩ := a
      rw [spansWFB, Bool.and_eq_true, Bool.and_eq_true] at h
      rw [eqLensB, Bool.and_eq_true]
      exact ⟨h.1.2, ih h.2⟩

/-- The validity bundle implies the invariant exactly as the spec words it. -/
theorem valid_keptInvariant {m : IndexMap} (h : m.Valid) : m.KeptInvariant := by
  obtain ⟨hwf, hic, hout⟩ := h
  exact ⟨bothSorted_of_wf hwf hic hout, eqLensB_of_wf hwf, hic, hout⟩

/-! ### Projection of a single interval in counting form -/

theorem chunkOf_none_deg {b1 b2 : Int} {sp : Span} (h : sp.2.1 < sp.1) :
    chunkOf b1 b2 sp = none := by
  rw [chunkOf, if_neg]
  have h1 : min b2 sp.2.1 ≤ sp.2.1 := min_le_right _ _
  have h2 : sp.1 ≤ max b1 sp.1 := le_max_right _ _
  omega

theorem belowCount_append (l1 l2 : List Span) (t : Int) :
    belowCount (l1 ++ l2) t = belowCount l1 t + belowCount l2 t := by
  induction l1 with
  | nil => simp [belowCount]
  | cons a rest ih =>
      obtain ⟨si, ei, so, eo⟩ := a
      rw [List.cons_append, belowCount, belowCount, ih]
      omega

theorem keptCount_append (l1 l2 : List Span) (b1 b2 : Int) :
    keptCount (l1 ++ l2) b1 b2 = keptCount l1 b1 b2 + keptCount l2 b1 b2 := by
  induction l1 with
  | nil => simp [keptCount]
  | cons a rest ih =>
      obtain ⟨si, ei, so, eo⟩ := a
      rw [List.cons_append, keptCount, keptCount, ih]
      omega

theorem outFromB_append_left {l1 l2 : List Span} : ∀ {c : Int},
    outFromB c (l1 ++ l2) = true → outFromB c l1 = true := by
  induction l1 with
  | nil => intro c _; rfl
  | cons a rest ih =>
      intro c h
      obtain ⟨si, ei, so, eo⟩ := a
      rw [List.cons_append] at h
      obtain ⟨h1, h2⟩ := outFromB_tail h
      rw [outFromB, Bool.and_eq_true]
      exact ⟨decide_eq_true_eq.mpr h1, ih h2⟩

/-- A span with empty input side can only be the last one under the
kept-span invariant. -/
theorem deg_head_rest_nil {a : Span} {rest : List Span} {c : Int}
    (hbs : bothSortedB (a :: rest) = true) (heq : eqLensB (a :: rest) = true)
    (hout : outFromB c (a :: rest) = true) (hdeg : a.2.1 < a.1) : rest = [] := by
  cases rest with
  | nil => rfl
  | cons b rest' =>
      exfalso
      have h1 := (bothSortedB_head hbs).2
      have h2 := eqLensB_mem heq a (by simp)
      obtain ⟨ha, hrest⟩ := outFromB_tail hout
      obtain ⟨hb, _⟩ := outFromB_tail hrest
      omega

/-- Under the kept-span invariant, either every span is well formed or the
list ends in a single degenerate span preceded by well-formed ones. -/
theorem keptInvariant_split {l : List Span} : ∀ {c : Int},
    bothSortedB l = true → eqLensB l = true → outFromB c l = true →
    (∀ sp ∈ l, spanWF sp) ∨
      ∃ l' d, l = l' ++ [d] ∧ (∀ sp ∈ l', spanWF sp) ∧ d.2.1 < d.1 := by
  induction l with
  | nil => intro c _ _ _; left; intro sp hsp; cases hsp
  | cons a rest ih =>
      intro c hbs heq hout
      by_cases ha : a.1 ≤ a.2.1
      · have haw : spanWF a := ⟨ha, eqLensB_mem heq a (by simp)⟩
        obtain ⟨h1, h2⟩ := outFromB_tail hout
        rcases ih (bothSortedB_tail hbs) (eqLensB_tail heq) h2 with hAll | ⟨l', d, heq', hWF', hdeg⟩
        · left
          intro sp hsp
          rcases List.mem_cons.mp hsp with rfl | hsp
          · exact haw
          · exact hAll sp hsp
        · right
          refine ⟨a :: l', d, by rw [heq', List.cons_append], ?_, hdeg⟩
          intro sp hsp
          rcases List.mem_cons.mp hsp with rfl | hsp
          · exact haw
          · exact hWF' sp hsp
      · right
        have hrest := deg_head_rest_nil hbs heq hout (by omega)
        exact ⟨[], a, by rw [hrest]; rfl, fun sp hsp => absurd hsp (by simp), by omega⟩

theorem covers_nil_of_empty {xs : List Interval} {a : Int} (h : covers a xs (a - 1)) :
    xs = [] := by
  cases xs with
  | nil => rfl
  | cons p rest =>
      exfalso
      obtain ⟨s, e⟩ := p
      obtain ⟨h1, h2, h3⟩ := h
      have := covers_le h3
      omega

/-- Counting form of `normalize` applied to the surviving runs. -/
theorem normalize_runs_count {l : List Span} (hWF : ∀ sp ∈ l, spanWF sp)
    (hDisj : l.Pairwise (fun a b => a.2.1 < b.1))
    (hOut : outFrom 0 l) (b1 b2 : Int) :
    normalize_intervals (survivingRuns l b1 b2) none =
      if keptCount l b1 b2 = 0 then []
      else [(belowCount l b1, belowCount l b1 + keptCount l b1 b2 - 1)] := by
  have hcov := @survivingRuns_covers l 0 b1 b2 hWF hDisj hOut
  rw [zero_add] at hcov
  by_cases hS : keptCount l b1 b2 = 0
  · rw [if_pos hS]
    rw [hS] at hcov
    have hnil : survivingRuns l b1 b2 = [] := by
      apply covers_nil_of_empty (a := belowCount l b1)
      rw [show belowCount l b1 - 1 = belowCount l b1 + 0 - 1 by ring]
      exact hcov
    rw [hnil, normalize_nil_none]
  · rw [if_neg hS]
    apply covers_normalize hcov
    intro hcon
    rw [hcon, covers] at hcov
    omega

/-- Forward projection of one interval `[b1, b2]` through a map satisfying
the kept-span invariant: the surviving points map to one consecutive block
of output positions, starting at the number of kept input points below `b1`. -/
theorem project_single_count {m : IndexMap} (hI : m.KeptInvariant) (b1 b2 : Int) :
    m.project_intervals_input_to_output [(b1, b2)] =
      if keptCount m.kept b1 b2 = 0 then []
      else [(belowCount m.kept b1, belowCount m.kept b1 + keptCount m.kept b1 b2 - 1)] := by
  obtain ⟨hbs, heq, hic, hout⟩ := hI
  have hsorted := bothSorted_pairwise hbs
  have hdisj := bothSorted_inputChain_pairwise hbs hic
  rw [project_single_runs hsorted hdisj]
  rcases keptInvariant_split hbs heq hout with hWF | ⟨l', d, hsplit, hWF', hdeg⟩
  · exact normalize_runs_count hWF hdisj (outFromB_outFrom hout) b1 b2
  · have hruns : survivingRuns m.kept b1 b2 = survivingRuns l' b1 b2 := by
      rw [hsplit, survivingRuns, survivingRuns, List.filterMap_append]
      rw [show List.filterMap (chunkOf b1 b2) [d] = [] by
        simp [List.filterMap_cons, chunkOf_none_deg hdeg]]
      rw [List.append_nil]
    have hbc : belowCount m.kept b1 = belowCount l' b1 := by
      rw [hsplit, belowCount_append]
      obtain ⟨dsi, dei, dso, deo⟩ := d
      simp only [] at hdeg
      rw [belowCount, belowCount]
      omega
    have hkc : keptCount m.kept b1 b2 = keptCount l' b1 b2 := by
      rw [hsplit, keptCount_append]
      obtain ⟨dsi, dei, dso, deo⟩ := d
      simp only [] at hdeg
      rw [keptCount, keptCount]
      omega
    rw [hruns, hbc, hkc]
    have hdisj' : l'.Pairwise (fun a b => a.2.1 < b.1) := by
      rw [hsplit] at hdisj
      exact hdisj.sublist (List.sublist_append_left _ _)
    have hout' : outFrom 0 l' := by
      rw [hsplit] at hout
      exact outFromB_outFrom (outFromB_append_left hout)
    exact normalize_runs_count hWF' hdisj' hout' b1 b2

/-! ### The sort and merge passes of `compose` on already-valid span lists -/

theorem chainLt_of_wf_chain {l : List Span} (hwf : spansWFB l = true)
    (hic : inputChainB l = true) : List.Chain' (fun p q => p.1 < q.1) l := by
  induction l with
  | nil => exact List.chain'_nil
  | cons a rest ih =>
      cases rest with
      | nil => simp
      | cons b rest' =>
          rw [List.chain'_cons]
          obtain ⟨hwa1, hwa2⟩ := spansWFB_mem hwf a (by simp)
          have hchain := inputChainB_head (a := a) (b := b) hic
          exact ⟨by omega, ih (spansWFB_tail hwf) (inputChainB_tail hic)⟩

theorem sortSpansLex_id {l : List Span}
    (h : List.Chain' (fun p q => p.1 < q.1) l) : sortSpansLex l = l := by
  induction l with
  | nil => rfl
  | cons x xs ih =>
      rw [sortSpansLex, ih h.tail]
      cases xs with
      | nil => rfl
      | cons y ys =>
          rw [insertSpanLex, if_pos]
          left
          exact (List.chain'_cons.mp h).1

theorem composeMergeLoop_head : ∀ (l : List Span) (prev : Span),
    ∃ q l', composeMergeLoop prev l = q :: l' ∧ q.1 = prev.1 ∧ q.2.2.1 = prev.2.2.1 := by
  intro l
  induction l with
  | nil => intro prev; exact ⟨prev, [], rfl, rfl, rfl⟩
  | cons seg rest ih =>
      intro prev
      rw [composeMergeLoop]
      by_cases hm : prev.2.1 + 1 = seg.1 ∧ prev.2.2.2 + 1 = seg.2.2.1
      · rw [if_pos hm]
        obtain ⟨q, l', heq, h1, h2⟩ := ih (prev.1, seg.2.1, prev.2.2.1, seg.2.2.2)
        exact ⟨q, l', heq, h1, h2⟩
      · rw [if_neg hm]
        exact ⟨prev, composeMergeLoop seg rest, rfl, rfl, rfl⟩

theorem composeMergeLoop_good : ∀ (l : List Span) (prev : Span) (c : Int),
    spansWFB (prev :: l) = true → inputChainB (prev :: l) = true →
    outFromB c (prev :: l) = true →
    spansWFB (composeMergeLoop prev l) = true ∧
    inputChainB (composeMergeLoop prev l) = true ∧
    outFromB c (composeMergeLoop prev l) = true := by
  intro l
  induction l with
  | nil =>
      intro prev c hwf hic hout
      exact ⟨hwf, hic, hout⟩
  | cons seg rest ih =>
      intro prev c hwf hic hout
      obtain ⟨psi, pei, pso, peo⟩ := prev
      obtain ⟨ssi, sei, sso, seo⟩ := seg
      have hwp1 : psi ≤ pei := (spansWFB_mem hwf (psi, pei, pso, peo) (by simp)).1
      have hwp2 : pei - psi = peo - pso := (spansWFB_mem hwf (psi, pei, pso, peo) (by simp)).2
      have hws1 : ssi ≤ sei := (spansWFB_mem hwf (ssi, sei, sso, seo) (by simp)).1
      have hws2 : sei - ssi = seo - sso := (spansWFB_mem hwf (ssi, sei, sso, seo) (by simp)).2
      have hwfrest : spansWFB ((ssi, sei, sso, seo) :: rest) = true := spansWFB_tail hwf
      have hicrest : inputChainB ((ssi, sei, sso, seo) :: rest) = true := inputChainB_tail hic
      obtain ⟨hp1, hp2⟩ := outFromB_tail hout
      obtain ⟨hs1, hs2⟩ := outFromB_tail hp2
      have hp1' : pso = c := hp1
      have hs1' : sso = peo + 1 := hs1
      have hs2' : outFromB (seo + 1) rest = true := hs2
      have hchain : pei < ssi :=
        inputChainB_head (a := (psi, pei, pso, peo)) (b := (ssi, sei, sso, seo)) hic
      rw [composeMergeLoop]
      by_cases hm : (psi, pei, pso, peo).2.1 + 1 = (ssi, sei, sso, seo).1 ∧
          (psi, pei, pso, peo).2.2.2 + 1 = (ssi, sei, sso, seo).2.2.1
      · rw [if_pos hm]
        have hm1 : pei + 1 = ssi := hm.1
        have hm2 : peo + 1 = sso := hm.2
        apply ih (psi, sei, pso, seo) c
        · -- well-formedness of the merged span
          rw [spansWFB, Bool.and_eq_true, Bool.and_eq_true]
          refine ⟨⟨decide_eq_true_eq.mpr (show psi ≤ sei by omega),
            decide_eq_true_eq.mpr (show sei - psi = seo - pso by omega)⟩, ?_⟩
          exact spansWFB_tail hwfrest
        · -- input chain with the merged span in front
          cases rest with
          | nil => rfl
          | cons r rest' =>
              rw [inputChainB, Bool.and_eq_true]
              have hh : sei < r.1 :=
                inputChainB_head (a := (ssi, sei, sso, seo)) (b := r) hicrest
              exact ⟨decide_eq_true_eq.mpr (show sei < r.1 from hh),
                inputChainB_tail hicrest⟩
        · -- output tiling with the merged span in front
          rw [outFromB, Bool.and_eq_true]
          exact ⟨decide_eq_true_eq.mpr (show pso = c from hp1'),
            show outFromB (seo + 1) rest = true from hs2'⟩
      · rw [if_neg hm]
        have hrec := ih (ssi, sei, sso, seo) (peo + 1) hwfrest hicrest
          (by rw [outFromB, Bool.and_eq_true]
              exact ⟨decide_eq_true_eq.mpr (show sso = peo + 1 from hs1'), hs2⟩)
        obtain ⟨q, l', heqq, hq1, hq2⟩ := composeMergeLoop_head rest (ssi, sei, sso, seo)
        have hq1' : q.1 = ssi := hq1
        refine ⟨?_, ?_, ?_⟩
        · rw [spansWFB, Bool.and_eq_true, Bool.and_eq_true]
          exact ⟨⟨decide_eq_true_eq.mpr (show psi ≤ pei from hwp1),
            decide_eq_true_eq.mpr (show pei - psi = peo - pso from hwp2)⟩, hrec.1⟩
        · rw [heqq, inputChainB, Bool.and_eq_true]
          refine ⟨decide_eq_true_eq.mpr (show pei < q.1 by omega), ?_⟩
          rw [heqq] at hrec
          exact hrec.2.1
        · rw [outFromB, Bool.and_eq_true]
          exact ⟨decide_eq_true_eq.mpr (show pso = c from hp1'), hrec.2.2⟩

theorem composeMerge_good {l : List Span} {c : Int}
    (hwf : spansWFB l = true) (hic : inputChainB l = true) (hout : outFromB c l = true) :
    spansWFB (composeMerge l) = true ∧ inputChainB (composeMerge l) = true ∧
      outFromB c (composeMerge l) = true := by
  cases l with
  | nil => exact ⟨rfl, rfl, rfl⟩
  | cons p rest => exact composeMergeLoop_good rest p c hwf hic hout

/-! ### Validity of the span list accumulated by `compose` -/

theorem composeSpansLoop_good {m2 : IndexMap} (hI2 : m2.KeptInvariant) :
    ∀ {A : List Span} {c : Int}, bothSortedB A = true → eqLensB A = true →
      inputChainB A = true → outFromB c A = true →
      spansWFB (composeSpansLoop m2 A) = true ∧
      inputChainB (composeSpansLoop m2 A) = true ∧
      outFromB (belowCount m2.kept c) (composeSpansLoop m2 A) = true ∧
      (∀ q ∈ composeSpansLoop m2 A, ∃ sp ∈ A, sp.1 ≤ q.1 ∧ q.2.1 ≤ sp.2.1) := by
  intro A
  induction A with
  | nil =>
      intro c _ _ _ _
      exact ⟨rfl, rfl, rfl, fun q hq => absurd hq (List.not_mem_nil q)⟩
  | cons a rest ih =>
      intro c hbs heq hic hout
      obtain ⟨si, ei, so, eo⟩ := a
      have hso : so = c := (outFromB_tail hout).1
      subst hso
      have houtrest : outFromB (eo + 1) rest = true := (outFromB_tail hout).2
      have hlen : ei - si = eo - so := eqLensB_mem heq (si, ei, so, eo) (by simp)
      have hexpand : composeSpansLoop m2 ((si, ei, so, eo) :: rest) =
          composeChunks si 0 (m2.project_intervals_input_to_output [(so, eo)]) ++
            composeSpansLoop m2 rest := rfl
      rw [hexpand, project_single_count hI2 so eo]
      by_cases hdeg : ei < si
      · -- a degenerate head span is necessarily the last one and contributes nothing
        have hrest : rest = [] :=
          deg_head_rest_nil (a := (si, ei, so, eo)) hbs heq hout hdeg
        subst hrest
        have hS0 : keptCount m2.kept so eo = 0 := keptCount_zero_rev (by omega)
        rw [if_pos hS0]
        refine ⟨rfl, rfl, rfl, fun q hq => absurd hq ?_⟩
        intro hq
        simp only [composeSpansLoop, composeChunks, List.append_nil] at hq
        exact absurd hq (List.not_mem_nil q)
      · have hsiei : si ≤ ei := by omega
        have hNsplit : belowCount m2.kept (eo + 1) =
            belowCount m2.kept so + keptCount m2.kept so eo :=
          belowCount_split (by omega)
        have ihrest := ih (bothSortedB_tail hbs) (eqLensB_tail heq)
          (inputChainB_tail hic) houtrest
        by_cases hS : keptCount m2.kept so eo = 0
        · rw [if_pos hS]
          rw [show composeChunks si 0 ([] : List Interval) = [] from rfl, List.nil_append]
          refine ⟨ihrest.1, ihrest.2.1, ?_, ?_⟩
          · rw [show belowCount m2.kept so = belowCount m2.kept (eo + 1) by omega]
            exact ihrest.2.2.1
          · intro q hq
            obtain ⟨sp, hsp, h1, h2⟩ := ihrest.2.2.2 q hq
            exact ⟨sp, by simp [hsp], h1, h2⟩
        · rw [if_neg hS]
          have hS1 : 1 ≤ keptCount m2.kept so eo := by
            have := keptCount_nonneg m2.kept so eo
            omega
          set N := belowCount m2.kept so with hN
          set S := keptCount m2.kept so eo with hSdef
          have hchunks : composeChunks si 0 [(N, N + S - 1)] =
              [(si, si + S - 1, N, N + S - 1)] := by
            simp only [composeChunks, List.cons.injEq, Prod.mk.injEq, and_true]
            omega
          rw [hchunks, List.singleton_append]
          have hSle : S ≤ ei - si + 1 := by
            have hd2 := bothSorted_inputChain_pairwise hI2.1 hI2.2.2.1
            have := @keptCount_le m2.kept hd2 so eo (by omega)
            omega
          refine ⟨?_, ?_, ?_, ?_⟩
          · rw [spansWFB, Bool.and_eq_true, Bool.and_eq_true]
            exact ⟨⟨decide_eq_true_eq.mpr (by omega), decide_eq_true_eq.mpr (by omega)⟩,
              ihrest.1⟩
          · cases hP : composeSpansLoop m2 rest with
            | nil => rfl
            | cons q P2 =>
                rw [inputChainB, Bool.and_eq_true]
                obtain ⟨sp, hsp, hq1, hq2⟩ := ihrest.2.2.2 q (by rw [hP]; simp)
                have hei_lt : ei < sp.1 := bothSorted_inputChain_head_all hbs hic sp hsp
                refine ⟨decide_eq_true_eq.mpr (show si + S - 1 < q.1 by omega), ?_⟩
                rw [← hP]
                exact ihrest.2.1
          · rw [outFromB, Bool.and_eq_true]
            refine ⟨decide_eq_true_eq.mpr rfl, ?_⟩
            rw [show (N + S - 1) + 1 = belowCount m2.kept (eo + 1) by omega]
            exact ihrest.2.2.1
          · intro q hq
            rcases List.mem_cons.mp hq with rfl | hq
            · exact ⟨(si, ei, so, eo), by simp, by simp only []; omega,
                by simp only []; omega⟩
            · obtain ⟨sp, hsp, h1, h2⟩ := ihrest.2.2.2 q hq
              exact ⟨sp, by simp [hsp], h1, h2⟩

/-- `compose` of two maps satisfying the kept-span invariant satisfies it as
well, provided the second map's kept spans sit at nonnegative input
positions. -/
theorem compose_keptInvariant {m1 m2 : IndexMap} (h1 : m1.KeptInvariant)
    (h2 : m2.KeptInvariant) (hpos : ∀ sp ∈ m2.kept, 0 ≤ sp.1) :
    (m1.compose m2).KeptInvariant := by
  obtain ⟨hbs, heq, hic, hout⟩ := h1
  have hgood := composeSpansLoop_good h2 hbs heq hic hout
  have hzero : belowCount m2.kept 0 = 0 := belowCount_zero hpos
  rw [hzero] at hgood
  obtain ⟨hwf, hic', hout', _⟩ := hgood
  have hsort : sortSpansLex (composeSpansLoop m2 m1.kept) = composeSpansLoop m2 m1.kept :=
    sortSpansLex_id (chainLt_of_wf_chain hwf hic')
  have hkept : (m1.compose m2).kept = composeMerge (composeSpansLoop m2 m1.kept) := by
    rw [IndexMap.compose, hsort]
  obtain ⟨hwfm, hicm, houtm⟩ := composeMerge_good hwf hic' hout'
  refine ⟨?_, ?_, ?_, ?_⟩ <;> rw [hkept]
  · exact bothSorted_of_wf hwfm hicm houtm
  · exact eqLensB_of_wf hwfm
  · exact hicm
  · exact houtm

/-! ### Invariants of normalization under a positive bound -/

theorem swapPair_wf (p : Interval) : (swapPair p).1 ≤ (swapPair p).2 := by
  rw [swapPair]
  split_ifs with h
  · simp only []
    omega
  · simp only []
    omega

theorem map_swapPair_wf {xs : List Interval} : ∀ p ∈ xs.map swapPair, p.1 ≤ p.2 := by
  intro p hp
  obtain ⟨q, _, rfl⟩ := List.mem_map.mp hp
  exact swapPair_wf q

theorem insertByStart_mem {x p : Interval} {l : List Interval} :
    p ∈ insertByStart x l ↔ p = x ∨ p ∈ l := by
  induction l with
  | nil => simp [insertByStart]
  | cons q rest ih =>
      rw [insertByStart]
      split_ifs with h
      · simp
      · rw [List.mem_cons, ih, List.mem_cons]
        tauto

theorem sortByStart_mem {p : Interval} {l : List Interval} :
    p ∈ sortByStart l ↔ p ∈ l := by
  induction l with
  | nil => simp [sortByStart]
  | cons q rest ih =>
      rw [sortByStart, insertByStart_mem, ih, List.mem_cons]

theorem clampStage_bounds {L : Int} (hL : 1 ≤ L) {xs : List Interval}
    (hwf : ∀ p ∈ xs, p.1 ≤ p.2) :
    ∀ p ∈ clampStage L xs, 0 ≤ p.1 ∧ p.1 ≤ p.2 ∧ p.2 ≤ L - 1 := by
  intro p hp
  rw [clampStage] at hp
  obtain ⟨q, hq, rfl⟩ := List.mem_map.mp hp
  have hq1 := hwf q (List.mem_filter.mp hq).1
  have hq2 := (List.mem_filter.mp hq).2
  simp only [decide_eq_true_eq] at hq2
  refine ⟨le_max_left _ _, ?_, ?_⟩
  · simp only []
    omega
  · simp only []
    omega

theorem normMergeLoop_good {L : Int} : ∀ {rest : List Interval} {cs ce : Int},
    (∀ p ∈ rest, 0 ≤ p.1 ∧ p.1 ≤ p.2 ∧ p.2 ≤ L - 1) →
    0 ≤ cs → cs ≤ ce → ce ≤ L - 1 →
    (∀ p ∈ normMergeLoop cs ce rest, 0 ≤ p.1 ∧ p.1 ≤ p.2 ∧ p.2 ≤ L - 1) ∧
    List.Chain' (fun p q => p.2 + 1 < q.1) (normMergeLoop cs ce rest) ∧
    ∃ b rest', normMergeLoop cs ce rest = (cs, b) :: rest' ∧ ce ≤ b := by
  intro rest
  induction rest with
  | nil =>
      intro cs ce _ h1 h2 h3
      rw [normMergeLoop]
      refine ⟨?_, by simp, ce, [], rfl, le_refl ce⟩
      intro p hp
      rcases List.mem_singleton.mp hp with rfl
      exact ⟨h1, h2, h3⟩
  | cons q rest' ih =>
      obtain ⟨s, e⟩ := q
      intro cs ce hb h1 h2 h3
      have hq := hb (s, e) (by simp)
      simp only [] at hq
      have hb' : ∀ p ∈ rest', 0 ≤ p.1 ∧ p.1 ≤ p.2 ∧ p.2 ≤ L - 1 :=
        fun p hp => hb p (by simp [hp])
      rw [normMergeLoop]
      by_cases hm : s ≤ ce + 1
      · rw [if_pos hm]
        have hrec := @ih cs (max ce e) hb' h1
          (le_trans h2 (le_max_left _ _)) (by omega)
        obtain ⟨hrb, hrc, b, r', heq, hbe⟩ := hrec
        exact ⟨hrb, hrc, b, r', heq, by omega⟩
      · rw [if_neg hm]
        have hrec := @ih s e hb' (by omega) (by omega) (by omega)
        obtain ⟨hrb, hrc, b, r', heq, hbe⟩ := hrec
        refine ⟨?_, ?_, ce, normMergeLoop s e rest', rfl, le_refl ce⟩
        · intro p hp
          rcases List.mem_cons.mp hp with rfl | hp
          · exact ⟨h1, h2, h3⟩
          · exact hrb p hp
        · rw [heq, List.chain'_cons]
          rw [heq] at hrc
          exact ⟨by simp only []; omega, hrc⟩

theorem mergeStage_good {L : Int} {xs : List Interval}
    (hb : ∀ p ∈ xs, 0 ≤ p.1 ∧ p.1 ≤ p.2 ∧ p.2 ≤ L - 1) :
    (∀ p ∈ mergeStage xs, 0 ≤ p.1 ∧ p.1 ≤ p.2 ∧ p.2 ≤ L - 1) ∧
    List.Chain' (fun p q => p.2 + 1 < q.1) (mergeStage xs) := by
  cases xs with
  | nil => exact ⟨fun p hp => absurd hp (List.not_mem_nil p), by simp [mergeStage]⟩
  | cons q rest =>
      obtain ⟨cs, ce⟩ := q
      have hq := hb (cs, ce) (by simp)
      simp only [] at hq
      rw [mergeStage]
      have := @normMergeLoop_good L rest cs ce
        (fun p hp => hb p (by simp [hp])) hq.1 hq.2.1 hq.2.2
      exact ⟨this.1, this.2.1⟩

/-- The invariants of `normalize_intervals` under a bound `L ≥ 1`: every
interval is well formed and within `[0, L-1]`, and consecutive intervals
neither touch nor overlap. -/
theorem normalize_some_good (intervals : List Interval) {L : Int} (hL : 1 ≤ L) :
    (∀ p ∈ normalize_intervals intervals (some L), 0 ≤ p.1 ∧ p.1 ≤ p.2 ∧ p.2 ≤ L - 1) ∧
    List.Chain' (fun p q => p.2 + 1 < q.1) (normalize_intervals intervals (some L)) := by
  by_cases hne : intervals = []
  · rw [normalize_intervals, if_pos hne]
    exact ⟨fun p hp => absurd hp (List.not_mem_nil p), by simp⟩
  · rw [normalize_intervals, if_neg hne]
    apply mergeStage_good
    apply clampStage_bounds hL
    intro p hp
    exact map_swapPair_wf p (sortByStart_mem.mp hp)

theorem sorted_of_bounds_chain {xs : List Interval}
    (hb : ∀ p ∈ xs, p.1 ≤ p.2)
    (hc : List.Chain' (fun p q => p.2 + 1 < q.1) xs) :
    List.Chain' (fun p q => p.1 < q.1) xs := by
  induction xs with
  | nil => exact List.chain'_nil
  | cons a rest ih =>
      cases rest with
      | nil => simp
      | cons b rest' =>
          rw [List.chain'_cons] at hc ⊢
          have ha := hb a (by simp)
          exact ⟨by omega, ih (fun p hp => hb p (by simp [hp])) hc.2⟩

/-- At bound `0`, every clamped interval collapses to the degenerate pair
`(0, -1)`, so normalization returns `[]` or `[(0, -1)]`. -/
theorem normalize_zero (intervals : List Interval) :
    normalize_intervals intervals (some 0) = [] ∨
      normalize_intervals intervals (some 0) = [(0, -1)] := by
  by_cases hne : intervals = []
  · left
    rw [normalize_intervals, if_pos hne]
  · rw [normalize_intervals, if_neg hne]
    show mergeStage (clampStage 0 (sortByStart (intervals.map swapPair))) = [] ∨
      mergeStage (clampStage 0 (sortByStart (intervals.map swapPair))) = [(0, -1)]
    have hall : ∀ p ∈ clampStage 0 (sortByStart (intervals.map swapPair)), p = (0, -1) := by
      intro p hp
      rw [clampStage] at hp
      obtain ⟨q, hq, rfl⟩ := List.mem_map.mp hp
      have hq2 := (List.mem_filter.mp hq).2
      simp only [decide_eq_true_eq] at hq2
      have h1 : max 0 q.1 = 0 := by omega
      have h2 : min (0 - 1) q.2 = -1 := by omega
      rw [h1, h2]
    have hloop : ∀ rest : List Interval, (∀ p ∈ rest, p = (0, -1)) →
        normMergeLoop 0 (-1) rest = [(0, -1)] := by
      intro rest
      induction rest with
      | nil => intro _; rfl
      | cons q rest' ihq =>
          intro hq
          have := hq q (by simp)
          subst this
          rw [normMergeLoop, if_pos (by omega)]
          rw [show max (-1 : Int) (-1) = -1 by omega]
          exact ihq (fun p hp => hq p (by simp [hp]))
    cases hcl : clampStage 0 (sortByStart (intervals.map swapPair)) with
    | nil =>
        left
        rw [mergeStage]
    | cons q rest =>
        right
        have hq : q = (0, -1) := hall q (by rw [hcl]; simp)
        subst hq
        rw [mergeStage]
        exact hloop rest (fun p hp => hall p (by rw [hcl]; simp [hp]))

/-! ### Validity of constructed maps and complement bookkeeping -/

theorem fromKeptLoop_good : ∀ {ks : List Interval} {c : Int},
    (∀ p ∈ ks, p.1 ≤ p.2) → List.Chain' (fun p q => p.2 < q.1) ks →
    spansWFB (fromKeptLoop c ks) = true ∧ inputChainB (fromKeptLoop c ks) = true ∧
    outFromB c (fromKeptLoop c ks) = true := by
  intro ks
  induction ks with
  | nil => intro c _ _; exact ⟨rfl, rfl, rfl⟩
  | cons q rest ih =>
      obtain ⟨s, e⟩ := q
      intro c hwf hchain
      have hse : s ≤ e := hwf (s, e) (by simp)
      have hrec := ih (c := c + (e - s + 1)) (fun p hp => hwf p (by simp [hp])) hchain.tail
      rw [fromKeptLoop]
      refine ⟨?_, ?_, ?_⟩
      · rw [spansWFB, Bool.and_eq_true, Bool.and_eq_true]
        exact ⟨⟨decide_eq_true_eq.mpr hse, decide_eq_true_eq.mpr (by omega)⟩, hrec.1⟩
      · cases rest with
        | nil => rfl
        | cons r rest' =>
            obtain ⟨s2, e2⟩ := r
            rw [fromKeptLoop, inputChainB, Bool.and_eq_true]
            have hlt : e < s2 := (List.chain'_cons.mp hchain).1
            rw [← fromKeptLoop]
            exact ⟨decide_eq_true_eq.mpr hlt, hrec.2.1⟩
      · rw [outFromB, Bool.and_eq_true]
        refine ⟨decide_eq_true_eq.mpr rfl, ?_⟩
        rw [show c + (e - s + 1) - 1 + 1 = c + (e - s + 1) by ring]
        exact hrec.2.2

theorem fromKeptLoop_inputs : ∀ (ks : List Interval) (c : Int),
    (fromKeptLoop c ks).map (fun sp => (sp.1, sp.2.1)) = ks := by
  intro ks
  induction ks with
  | nil => intro c; rfl
  | cons q rest ih =>
      obtain ⟨s, e⟩ := q
      intro c
      rw [fromKeptLoop, List.map_cons, ih]

/-- `from_kept_ranges` on a well-formed sorted disjoint list of kept
intervals satisfies the data-model invariant. -/
theorem from_kept_ranges_valid {ks : List Interval}
    (hwf : ∀ p ∈ ks, p.1 ≤ p.2) (hchain : List.Chain' (fun p q => p.2 < q.1) ks) :
    (IndexMap.from_kept_ranges ks).Valid := by
  have := fromKeptLoop_good (c := 0) hwf hchain
  exact ⟨this.1, this.2.1, this.2.2⟩

theorem gapChain_head_all {x : Interval} {rest : List Interval}
    (hb : ∀ p ∈ rest, p.1 ≤ p.2)
    (hc : List.Chain' (fun p q => p.2 + 1 < q.1) (x :: rest)) :
    ∀ p ∈ rest, x.2 + 1 < p.1 := by
  induction rest generalizing x with
  | nil => intro p hp; cases hp
  | cons b rest' ih =>
      intro p hp
      have hxb : x.2 + 1 < b.1 := (List.chain'_cons.mp hc).1
      rcases List.mem_cons.mp hp with rfl | hp
      · exact hxb
      · have hbb := hb b (by simp)
        have := ih (fun p hp => hb p (by simp [hp])) (List.chain'_cons.mp hc).2 p hp
        omega

theorem invertLoop_good {L : Int} : ∀ {removed : List Interval} {cur : Int},
    (∀ p ∈ removed, cur ≤ p.1 ∧ p.1 ≤ p.2 ∧ p.2 ≤ L - 1) →
    List.Chain' (fun p q => p.2 + 1 < q.1) removed →
    (∀ q ∈ invertLoop L cur removed, cur ≤ q.1 ∧ q.1 ≤ q.2 ∧ q.2 ≤ L - 1) ∧
    List.Chain' (fun p q => p.2 < q.1) (invertLoop L cur removed) := by
  intro removed
  induction removed with
  | nil =>
      intro cur _ _
      rw [invertLoop]
      split_ifs with h
      · exact ⟨by intro q hq; rcases List.mem_singleton.mp hq with rfl; exact ⟨le_refl _, by omega, by omega⟩, by simp⟩
      · exact ⟨fun q hq => absurd hq (List.not_mem_nil q), by simp⟩
  | cons r rest ih =>
      obtain ⟨s, e⟩ := r
      intro cur hb hc
      have hr := hb (s, e) (by simp)
      simp only [] at hr
      have hrestb : ∀ p ∈ rest, e + 1 ≤ p.1 ∧ p.1 ≤ p.2 ∧ p.2 ≤ L - 1 := by
        intro p hp
        have h1 := gapChain_head_all (x := (s, e))
          (fun p hp => (hb p (by simp [hp])).2.1) hc p hp
        have h2 := hb p (by simp [hp])
        exact ⟨by simp only [] at h1; omega, h2.2.1, h2.2.2⟩
      have hrec := @ih (e + 1) hrestb hc.tail
      rw [invertLoop]
      by_cases hcs : cur < s
      · rw [if_pos hcs, List.singleton_append]
        constructor
        · intro q hq
          rcases List.mem_cons.mp hq with rfl | hq
          · exact ⟨le_refl _, by omega, by omega⟩
          · have := hrec.1 q hq
            exact ⟨by omega, this.2.1, this.2.2⟩
        · cases hrl : invertLoop L (e + 1) rest with
          | nil => simp
          | cons q' rest2 =>
              rw [List.chain'_cons]
              have hq' := hrec.1 q' (by rw [hrl]; simp)
              rw [hrl] at hrec
              exact ⟨by simp only []; omega, hrec.2⟩
      · rw [if_neg hcs, List.nil_append]
        refine ⟨?_, hrec.2⟩
        intro q hq
        have := hrec.1 q hq
        exact ⟨by omega, this.2.1, this.2.2⟩

/-- Kept intervals produced by `invert_to_kept` under a bound `L ≥ 1`:
well formed, within `[0, L-1]`, sorted and disjoint. -/
theorem invert_to_kept_good {removed : List Interval} {L : Int} (hL : 1 ≤ L) :
    (∀ p ∈ invert_to_kept removed L, 0 ≤ p.1 ∧ p.1 ≤ p.2 ∧ p.2 ≤ L - 1) ∧
    List.Chain' (fun p q => p.2 < q.1) (invert_to_kept removed L) := by
  rw [invert_to_kept]
  have hgood := normalize_some_good removed hL
  by_cases hne : normalize_intervals removed (some L) = []
  · rw [if_pos hne]
    constructor
    · intro p hp
      rcases List.mem_singleton.mp hp with rfl
      exact ⟨le_refl _, by omega, by omega⟩
    · simp
  · rw [if_neg hne]
    have := @invertLoop_good L (normalize_intervals removed (some L)) 0
      (fun p hp => ⟨(hgood.1 p hp).1, (hgood.1 p hp).2.1, (hgood.1 p hp).2.2⟩) hgood.2
    exact ⟨this.1, this.2⟩

/-! ### Sample counting for `remove_intervals_and_build_map` -/

/-- Total number of samples covered by a list of intervals. -/
def sumLens : List Interval → Int
  | [] => 0
  | (s, e) :: rest => (e - s + 1) + sumLens rest

theorem sumLens_append (l1 l2 : List Interval) :
    sumLens (l1 ++ l2) = sumLens l1 + sumLens l2 := by
  induction l1 with
  | nil => simp [sumLens]
  | cons q rest ih =>
      obtain ⟨s, e⟩ := q
      rw [List.cons_append, sumLens, sumLens, ih]
      ring

theorem invertLoop_sum {L : Int} : ∀ {removed : List Interval} {cur : Int},
    (∀ p ∈ removed, cur ≤ p.1 ∧ p.1 ≤ p.2 ∧ p.2 ≤ L - 1) →
    List.Chain' (fun p q => p.2 + 1 < q.1) removed → cur ≤ L →
    sumLens (invertLoop L cur removed) = (L - cur) - sumLens removed := by
  intro removed
  induction removed with
  | nil =>
      intro cur _ _ hcur
      rw [invertLoop]
      split_ifs with h
      · simp only [sumLens]
        omega
      · simp only [sumLens]
        omega
  | cons r rest ih =>
      obtain ⟨s, e⟩ := r
      intro cur hb hc hcur
      have hr := hb (s, e) (by simp)
      simp only [] at hr
      have hrestb : ∀ p ∈ rest, e + 1 ≤ p.1 ∧ p.1 ≤ p.2 ∧ p.2 ≤ L - 1 := by
        intro p hp
        have h1 := gapChain_head_all (x := (s, e))
          (fun p hp => (hb p (by simp [hp])).2.1) hc p hp
        have h2 := hb p (by simp [hp])
        exact ⟨by simp only [] at h1; omega, h2.2.1, h2.2.2⟩
      have hrec := @ih (e + 1) hrestb hc.tail (by omega)
      rw [invertLoop, sumLens_append, hrec, sumLens]
      by_cases hcs : cur < s
      · rw [if_pos hcs, sumLens, sumLens]
        omega
      · rw [if_neg hcs, sumLens]
        omega

/-! ### Idempotence of normalization on already-normalized lists -/

theorem clampStage_id {L : Int} {xs : List Interval}
    (hb : ∀ p ∈ xs, 0 ≤ p.1 ∧ p.1 ≤ p.2 ∧ p.2 ≤ L - 1) : clampStage L xs = xs := by
  rw [clampStage]
  have hf : xs.filter (fun p => decide (p.1 < L ∧ p.2 ≥ 0)) = xs := by
    rw [List.filter_eq_self]
    intro p hp
    have := hb p hp
    simp only [decide_eq_true_eq]
    omega
  rw [hf]
  induction xs with
  | nil => rfl
  | cons q rest ih =>
      rw [List.map_cons, ih (fun p hp => hb p (by simp [hp]))
        (by rw [List.filter_eq_self]; intro p hp; have := hb p (by simp [hp]);
            simp only [decide_eq_true_eq]; omega)]
      have hq := hb q (by simp)
      have h1 : max 0 q.1 = q.1 := by omega
      have h2 : min (L - 1) q.2 = q.2 := by omega
      rw [h1, h2]

theorem normMergeLoop_id {rest : List Interval} : ∀ {cs ce : Int},
    List.Chain' (fun p q => p.2 + 1 < q.1) ((cs, ce) :: rest) →
    normMergeLoop cs ce rest = (cs, ce) :: rest := by
  induction rest with
  | nil => intro cs ce _; rfl
  | cons q rest' ih =>
      obtain ⟨s, e⟩ := q
      intro cs ce hc
      have hgap : ce + 1 < s := by
        have := (List.chain'_cons.mp hc).1
        simp only [] at this
        omega
      rw [normMergeLoop, if_neg (by omega)]
      rw [ih (List.chain'_cons.mp hc).2]

/-- Normalizing an already-normalized list (well formed, within bounds,
sorted with gaps) is the identity. -/
theorem normalize_good_id {r : List Interval} {L : Int}
    (hb : ∀ p ∈ r, 0 ≤ p.1 ∧ p.1 ≤ p.2 ∧ p.2 ≤ L - 1)
    (hc : List.Chain' (fun p q => p.2 + 1 < q.1) r) :
    normalize_intervals r (some L) = r := by
  by_cases hne : r = []
  · rw [normalize_intervals, if_pos hne, hne]
  · rw [normalize_intervals, if_neg hne]
    have hwf : ∀ p ∈ r, p.1 ≤ p.2 := fun p hp => (hb p hp).2.1
    have hsorted : List.Chain' (fun p q => p.1 ≤ q.1) r := by
      have := sorted_of_bounds_chain hwf hc
      exact List.Chain'.imp (fun a b h => le_of_lt h) this
    show mergeStage (clampStage L (sortByStart (r.map swapPair))) = r
    rw [map_swap_id hwf, sortByStart_id hsorted, clampStage_id hb]
    cases r with
    | nil => rfl
    | cons q rest =>
        obtain ⟨cs, ce⟩ := q
        rw [mergeStage]
        exact normMergeLoop_id hc

/-! ### Single-point round trip through a valid map -/

theorem mem_unique_of_pairwise {α : Type} {l : List α} {R : α → α → Prop}
    (hd : l.Pairwise R) {x y : α} (hx : x ∈ l) (hy : y ∈ l)
    {P : α → Prop} (hPx : P x) (hPy : P y)
    (hcon : ∀ a b, R a b → P a → P b → False) : x = y := by
  induction l with
  | nil => cases hx
  | cons a rest ih =>
      rw [List.pairwise_cons] at hd
      rcases List.mem_cons.mp hx with rfl | hx'
      · rcases List.mem_cons.mp hy with rfl | hy'
        · rfl
        · exact absurd (hcon x y (hd.1 y hy') hPx hPy) not_false
      · rcases List.mem_cons.mp hy with rfl | hy'
        · exact absurd (hcon y x (hd.1 x hx') hPy hPx) not_false
        · exact ih hd.2 hx' hy'

theorem pySliceLen {α : Type} (x : List α) {s e : Int} (h0 : 0 ≤ s)
    (he : e ≤ (x.length : Int) - 1) :
    ((pySlice s e x).length : Int) = max 0 (e + 1 - s) := by
  rw [pySlice, List.length_take, List.length_drop]
  omega

theorem catSlices_length {α : Type} (x : List α) : ∀ {kept : List Interval},
    (∀ p ∈ kept, 0 ≤ p.1 ∧ p.1 ≤ p.2 ∧ p.2 ≤ (x.length : Int) - 1) →
    ((catSlices x kept).length : Int) = sumLens kept := by
  intro kept
  induction kept with
  | nil => intro _; rfl
  | cons q rest ih =>
      obtain ⟨s, e⟩ := q
      intro hb
      have hq := hb (s, e) (by simp)
      simp only [] at hq
      rw [catSlices, List.length_append, sumLens]
      push_cast
      rw [ih (fun p hp => hb p (by simp [hp])), pySliceLen x hq.1 hq.2.2]
      omega

/-- Round trip of a single kept input point: forward projection yields its
single output image, and backward projection of that image returns the point. -/
theorem valid_roundtrip {m : IndexMap} (hV : m.Valid) {si ei so eo i : Int}
    (hmem : (si, ei, so, eo) ∈ m.kept) (h1 : si ≤ i) (h2 : i ≤ ei) :
    m.project_intervals_input_to_output [(i, i)] =
      [(so + (i - si), so + (i - si))] ∧
    m.project_intervals_output_to_input
      (m.project_intervals_input_to_output [(i, i)]) = [(i, i)] := by
  obtain ⟨hwf, hic, hout⟩ := hV
  have hWFall := spansWFB_mem hwf
  have hdisj := inputChain_pairwise (fun sp h => (hWFall sp h).1) hic
  have hodisj := out_pairwise hWFall hout
  have hlen : ei - si = eo - so := (hWFall (si, ei, so, eo) hmem).2
  -- forward projection of the point
  have hfsome : (findContaining m.kept i).isSome := by
    rw [findContaining, List.find?_isSome]
    exact ⟨(si, ei, so, eo), hmem, by
      simp only [Bool.and_eq_true, decide_eq_true_eq]
      exact ⟨h1, h2⟩⟩
  obtain ⟨sp', hfind⟩ := Option.isSome_iff_exists.mp hfsome
  obtain ⟨si', ei', so', eo'⟩ := sp'
  have hprops := findContaining_some hfind
  have heqsp : ((si', ei', so', eo') : Span) = (si, ei, so, eo) := by
    apply mem_unique_of_pairwise hdisj hprops.2.2 hmem
      (P := fun sp => sp.1 ≤ i ∧ i ≤ sp.2.1)
    · exact ⟨hprops.1, hprops.2.1⟩
    · exact ⟨h1, h2⟩
    · intro a b hR hPa hPb
      omega
  rw [heqsp] at hfind
  have hfwd : m.project_intervals_input_to_output [(i, i)] =
      [(so + (i - si), so + (i - si))] := by
    rw [IndexMap.project_intervals_input_to_output, if_neg (by simp)]
    rw [catMap, catMap, List.append_nil]
    rw [fwdLoop_found (le_refl i) hfind]
    rw [min_eq_left h2, fwdLoop_stop (by omega)]
    exact normalize_singleton (le_refl _)
  refine ⟨hfwd, ?_⟩
  rw [hfwd]
  -- backward projection of the image point
  have hoso : so ≤ so + (i - si) := by omega
  have hoeo : so + (i - si) ≤ eo := by omega
  have hbsome : (findContainingOut m.kept (so + (i - si))).isSome := by
    rw [findContainingOut, List.find?_isSome]
    exact ⟨(si, ei, so, eo), hmem, by
      simp only [Bool.and_eq_true, decide_eq_true_eq]
      exact ⟨hoso, hoeo⟩⟩
  obtain ⟨sp'', hfindo⟩ := Option.isSome_iff_exists.mp hbsome
  obtain ⟨si2, ei2, so2, eo2⟩ := sp''
  have hprops2 := findContainingOut_some hfindo
  have heqsp2 : ((si2, ei2, so2, eo2) : Span) = (si, ei, so, eo) := by
    apply mem_unique_of_pairwise hodisj hprops2.2.2 hmem
      (P := fun sp => sp.2.2.1 ≤ so + (i - si) ∧ so + (i - si) ≤ sp.2.2.2)
    · exact ⟨hprops2.1, hprops2.2.1⟩
    · exact ⟨hoso, hoeo⟩
    · intro a b hR hPa hPb
      omega
  rw [heqsp2] at hfindo
  rw [IndexMap.project_intervals_output_to_input, if_neg (by simp)]
  rw [catMap, catMap, List.append_nil]
  rw [bwdLoop_found (le_refl _) hfindo]
  rw [min_eq_left hoeo, bwdLoop_stop (by omega)]
  rw [show si + (so + (i - si) - so) = i by ring]
  exact normalize_singleton (le_refl _)

/-! ### Full characterization of `remove_intervals_and_build_map` -/

theorem remove_intervals_spec {α : Type} (x : List α) (removed : List Interval) :
    (remove_intervals_and_build_map x removed).1 =
      catSlices x (invert_to_kept (normalize_intervals removed (some (x.length : Int)))
        (x.length : Int)) ∧
    ((remove_intervals_and_build_map x removed).1.length : Int) =
      (x.length : Int) - sumLens (normalize_intervals removed (some (x.length : Int))) ∧
    (remove_intervals_and_build_map x removed).2.kept.map (fun sp => (sp.1, sp.2.1)) =
      invert_to_kept (normalize_intervals removed (some (x.length : Int)))
        (x.length : Int) := by
  set n : Int := (x.length : Int) with hn
  set removed' : List Interval := normalize_intervals removed (some n) with hrd
  set kept : List Interval := invert_to_kept removed' n with hkd
  have hx : remove_intervals_and_build_map x removed =
      if kept = [] then ([], IndexMap.from_kept_ranges [])
      else (catSlices x kept, IndexMap.from_kept_ranges kept) := rfl
  have hn0 : 0 ≤ n := by positivity
  by_cases hcase : 1 ≤ n
  · -- nonempty signal
    have hg := normalize_some_good removed (L := n) hcase
    have hgb : ∀ p ∈ removed', 0 ≤ p.1 ∧ p.1 ≤ p.2 ∧ p.2 ≤ n - 1 := hg.1
    have hgc := hg.2
    have hkept_eq : kept = if removed' = [] then [(0, n - 1)]
        else invertLoop n 0 removed' := by
      rw [hkd, invert_to_kept, normalize_good_id hgb hgc]
    have hbounds : ∀ p ∈ kept, 0 ≤ p.1 ∧ p.1 ≤ p.2 ∧ p.2 ≤ n - 1 :=
      (@invert_to_kept_good removed' n hcase).1
    have hsum : sumLens kept = n - sumLens removed' := by
      rw [hkept_eq]
      by_cases hre : removed' = []
      · rw [if_pos hre, hre, sumLens, sumLens, sumLens]
        ring
      · rw [if_neg hre]
        rw [invertLoop_sum (fun p hp => ⟨(hgb p hp).1, (hgb p hp).2.1, (hgb p hp).2.2⟩)
          hgc (by omega)]
        ring
    refine ⟨?_, ?_, ?_⟩
    · rw [hx]
      split_ifs with hk
      · rw [hk]
        rfl
      · rfl
    · rw [hx]
      split_ifs with hk
      · rw [hk, sumLens] at hsum
        simp only [List.length_nil]
        omega
      · show ((catSlices x kept).length : Int) = n - sumLens removed'
        rw [catSlices_length x hbounds]
        omega
    · rw [hx]
      split_ifs with hk
      · rw [hk]
        rfl
      · exact fromKeptLoop_inputs kept 0
  · -- empty signal
    have hxe : x = [] := by
      have : x.length = 0 := by omega
      exact List.length_eq_zero.mp this
    subst hxe
    have hnn : n = 0 := by rw [hn]; rfl
    rcases normalize_zero removed with hz | hz
    · have hre : removed' = [] := by rw [hrd, hnn]; exact hz
      have hke : kept = [(0, -1)] := by
        rw [hkd, hre, hnn]
        rfl
      refine ⟨?_, ?_, ?_⟩
      · rw [hx, if_neg (by rw [hke]; simp), hke]
      · rw [hx, if_neg (by rw [hke]; simp), hke, hre, hnn]
        rfl
      · rw [hx, if_neg (by rw [hke]; simp), hke]
        rfl
    · have hre : removed' = [(0, -1)] := by rw [hrd, hnn]; exact hz
      have hke : kept = [] := by
        rw [hkd, hre, hnn]
        rfl
      refine ⟨?_, ?_, ?_⟩
      · rw [hx, if_pos hke, hke]
        rfl
      · rw [hx, if_pos hke, hre, hnn]
        rfl
      · rw [hx, if_pos hke, hke]
        rfl

/-- `from_removed_ranges` satisfies the kept-span invariant for every
removed set and every nonnegative input length. -/
theorem from_removed_keptInvariant (removed : List Interval) (L : Int) (hL : 0 ≤ L) :
    (IndexMap.from_removed_ranges removed L).KeptInvariant := by
  rw [IndexMap.from_removed_ranges]
  by_cases hc : 1 ≤ L
  · have hg := @invert_to_kept_good removed L hc
    exact valid_keptInvariant
      (from_kept_ranges_valid (fun p hp => (hg.1 p hp).2.1) hg.2)
  · have hL0 : L = 0 := by omega
    subst hL0
    rw [invert_to_kept]
    rcases normalize_zero removed with hz | hz
    · rw [hz, if_pos rfl]
      exact ⟨rfl, by decide, rfl, by decide⟩
    · rw [hz, if_neg (by simp)]
      exact ⟨rfl, rfl, rfl, rfl⟩

/-! ## Claims -/

/-- C1: the claim states that for maps `m1 : A → B` and `m2 : B → C`, every
index `i` of `A` in a kept span of `m1` whose image lies in a kept span of
`m2` satisfies `compose(m1, m2).project_forward([(i,i)]) =
m2.project_forward(m1.project_forward([(i,i)]))`.  The code violates this:
with `m1` the identity on length 10 (no interval removed) and `m2` removing
`[(2,4)]` from length 10, the index `5` lies in a kept span of `m1` and its
image `5` lies in the kept span `(5,9,2,6)` of `m2`, yet the composed map
projects `[(5,5)]` to `[(5,5)]` while projecting through the two maps in
sequence yields `[(2,2)]`.  This theorem evaluates the code at that failing
input. -/
theorem c1_compose_point_divergence :
    ((0, 9, 0, 9) : Span) ∈ (IndexMap.from_removed_ranges [] 10).kept ∧
    ((5, 9, 2, 6) : Span) ∈ (IndexMap.from_removed_ranges [(2, 4)] 10).kept ∧
    ((IndexMap.from_removed_ranges [] 10).compose
        (IndexMap.from_removed_ranges [(2, 4)] 10)).project_intervals_input_to_output
      [(5, 5)] = [(5, 5)] ∧
    (IndexMap.from_removed_ranges [(2, 4)] 10).project_intervals_input_to_output
      ((IndexMap.from_removed_ranges [] 10).project_intervals_input_to_output
        [(5, 5)]) = [(2, 2)] ∧
    ([(5, 5)] : List Interval) ≠ [(2, 2)] := by
  refine ⟨by decide, by decide, by decide, by decide, by decide⟩

/-- C2: the claim states that composition is associative for maps with
matching lengths along the chain.  The code violates this: with
`m1 = from_removed_ranges [(2,2)] 5 : A(5) → B(4)`,
`m2 = from_removed_ranges [] 4 : B(4) → C(4)` and
`m3 = from_removed_ranges [(1,2)] 4 : C(4) → D(2)`, the two associations
produce different maps (kept spans `[(0,0,0,0),(3,3,1,1)]` versus
`[(0,1,0,1)]`).  This theorem evaluates the code at that failing input. -/
theorem c2_compose_not_associative :
    (((IndexMap.from_removed_ranges [(2, 2)] 5).compose
        (IndexMap.from_removed_ranges [] 4)).compose
      (IndexMap.from_removed_ranges [(1, 2)] 4)).kept = [(0, 0, 0, 0), (3, 3, 1, 1)] ∧
    ((IndexMap.from_removed_ranges [(2, 2)] 5).compose
      ((IndexMap.from_removed_ranges [] 4).compose
        (IndexMap.from_removed_ranges [(1, 2)] 4))).kept = [(0, 1, 0, 1)] ∧
    ((IndexMap.from_removed_ranges [(2, 2)] 5).compose
        (IndexMap.from_removed_ranges [] 4)).compose
      (IndexMap.from_removed_ranges [(1, 2)] 4) ≠
    (IndexMap.from_removed_ranges [(2, 2)] 5).compose
      ((IndexMap.from_removed_ranges [] 4).compose
        (IndexMap.from_removed_ranges [(1, 2)] 4)) := by
  refine ⟨by decide, by decide, by decide⟩

/-- C3: for every Index Map satisfying the data-model invariant and every
input index `i` inside one of its kept spans,
`project_intervals_input_to_output [(i,i)]` is a single-point interval set,
and `project_intervals_output_to_input` applied to it returns exactly
`[(i,i)]`. -/
theorem c3_roundtrip (m : IndexMap) (hV : m.Valid) (si ei so eo i : Int)
    (hmem : (si, ei, so, eo) ∈ m.kept) (h1 : si ≤ i) (h2 : i ≤ ei) :
    (∃ o : Int, m.project_intervals_input_to_output [(i, i)] = [(o, o)]) ∧
    m.project_intervals_output_to_input
      (m.project_intervals_input_to_output [(i, i)]) = [(i, i)] :=
  ⟨⟨so + (i - si), (valid_roundtrip hV hmem h1 h2).1⟩,
    (valid_roundtrip hV hmem h1 h2).2⟩

/-- Witness for C3 at the map removing `[(2,4)]` from a length-10 signal and
the kept input index `7`. -/
theorem c3_roundtrip_witness :
    (IndexMap.from_removed_ranges [(2, 4)] 10).Valid ∧
    ((5, 9, 2, 6) : Span) ∈ (IndexMap.from_removed_ranges [(2, 4)] 10).kept ∧
    (5 : Int) ≤ 7 ∧ (7 : Int) ≤ 9 ∧
    ((∃ o : Int, (IndexMap.from_removed_ranges [(2, 4)] 10).project_intervals_input_to_output
        [(7, 7)] = [(o, o)]) ∧
      (IndexMap.from_removed_ranges [(2, 4)] 10).project_intervals_output_to_input
        ((IndexMap.from_removed_ranges [(2, 4)] 10).project_intervals_input_to_output
          [(7, 7)]) = [(7, 7)]) :=
  ⟨by decide, by decide, by decide, by decide,
    c3_roundtrip (IndexMap.from_removed_ranges [(2, 4)] 10) (by decide) 5 9 2 6 7
      (by decide) (by decide) (by decide)⟩

/-- C4 counterexample: the claim as stated fails on the code in two ways.
First, a map whose kept spans satisfy the stated invariant may sit at
negative input positions; composing with it yields a map whose output side
no longer partitions `[0, Lout-1]` (its single span's output start is 1, not
0).  Second, `from_removed_ranges` applied to a negative length produces a
map violating the invariant outright. -/
theorem c4_keptInvariant_counterexample :
    ((IndexMap.mk [(0, 0, 0, 0)]).KeptInvariant ∧
      (IndexMap.mk [(-5, -5, 0, 0), (0, 0, 1, 1)]).KeptInvariant ∧
      ((IndexMap.mk [(0, 0, 0, 0)]).compose
          (IndexMap.mk [(-5, -5, 0, 0), (0, 0, 1, 1)])).kept = [(0, 0, 1, 1)] ∧
      ¬ ((IndexMap.mk [(0, 0, 0, 0)]).compose
          (IndexMap.mk [(-5, -5, 0, 0), (0, 0, 1, 1)])).KeptInvariant) ∧
    ¬ (IndexMap.from_removed_ranges [(-10, 5), (-10, 5), (-10, 5)] (-3)).KeptInvariant := by
  refine ⟨⟨by decide, by decide, by decide, by decide⟩, by decide⟩

/-- C4 (amended): `from_kept_ranges` on a sorted non-overlapping list of
well-formed intervals, `from_removed_ranges` on a nonnegative input length,
and `compose` of two invariant-satisfying maps whose second map's kept spans
sit at nonnegative input positions, all satisfy the kept-span invariant:
simultaneous ascending sortedness, equal input/output lengths, pairwise
non-overlapping input sides, and output sides exactly partitioning
`[0, Lout-1]`. -/
theorem c4_keptInvariant_amended :
    (∀ ks : List Interval, (∀ p ∈ ks, p.1 ≤ p.2) →
      List.Chain' (fun p q => p.2 < q.1) ks →
      (IndexMap.from_kept_ranges ks).KeptInvariant) ∧
    (∀ (removed : List Interval) (L : Int), 0 ≤ L →
      (IndexMap.from_removed_ranges removed L).KeptInvariant) ∧
    (∀ m1 m2 : IndexMap, m1.KeptInvariant → m2.KeptInvariant →
      (∀ sp ∈ m2.kept, 0 ≤ sp.1) → (m1.compose m2).KeptInvariant) :=
  ⟨fun _ hwf hchain => valid_keptInvariant (from_kept_ranges_valid hwf hchain),
    from_removed_keptInvariant,
    fun _ _ h1 h2 hpos => compose_keptInvariant h1 h2 hpos⟩

/-- Witness for C4 at concrete kept ranges, a concrete removal, and a
concrete composition. -/
theorem c4_keptInvariant_witness :
    ((∀ p ∈ ([(0, 1), (5, 9)] : List Interval), p.1 ≤ p.2) ∧
      List.Chain' (fun p q : Interval => p.2 < q.1) ([(0, 1), (5, 9)] : List Interval) ∧
      (IndexMap.from_kept_ranges [(0, 1), (5, 9)]).KeptInvariant) ∧
    ((0 : Int) ≤ 10 ∧ (IndexMap.from_removed_ranges [(2, 4)] 10).KeptInvariant) ∧
    ((IndexMap.from_removed_ranges [] 10).KeptInvariant ∧
      (IndexMap.from_removed_ranges [(2, 4)] 10).KeptInvariant ∧
      (∀ sp ∈ (IndexMap.from_removed_ranges [(2, 4)] 10).kept, 0 ≤ sp.1) ∧
      ((IndexMap.from_removed_ranges [] 10).compose
        (IndexMap.from_removed_ranges [(2, 4)] 10)).KeptInvariant) :=
  ⟨⟨by decide,
      by rw [List.chain'_cons]
         exact ⟨by norm_num, List.chain'_singleton _⟩,
      c4_keptInvariant_amended.1 [(0, 1), (5, 9)] (by decide)
        (by rw [List.chain'_cons]
            exact ⟨by norm_num, List.chain'_singleton _⟩)⟩,
    ⟨by decide, c4_keptInvariant_amended.2.1 [(2, 4)] 10 (by decide)⟩,
    ⟨by decide, by decide, by decide,
      c4_keptInvariant_amended.2.2 (IndexMap.from_removed_ranges [] 10)
        (IndexMap.from_removed_ranges [(2, 4)] 10) (by decide) (by decide) (by decide)⟩⟩

/-- C5 counterexample: the claim states that calling
`project_intervals_output_to_input` with an interval touching an index
outside `[0, Lout-1]` is fatal to the call.  The code instead returns
normally and silently drops the out-of-range portion: on the map removing
`[(2,4)]` from length 10 (`Lout = 7`), querying the out-of-range point
`[(7,7)]` returns `[]`, and querying `[(0,7)]` returns the same result as
the fully in-range `[(0,6)]`. -/
theorem c5_backward_silent_counterexample :
    (IndexMap.from_removed_ranges [(2, 4)] 10).project_intervals_output_to_input
      [(7, 7)] = [] ∧
    (IndexMap.from_removed_ranges [(2, 4)] 10).project_intervals_output_to_input
      [(0, 7)] = [(0, 1), (5, 9)] ∧
    (IndexMap.from_removed_ranges [(2, 4)] 10).project_intervals_output_to_input
      [(0, 6)] = [(0, 1), (5, 9)] := by
  refine ⟨by decide, by decide, by decide⟩

/-- Once the cursor reaches a point at or above every kept output end,
the backward loop dies immediately (the source's `cur = e + 1`). -/
theorem bwdLoop_dead_ge {kept : List Span} {L e c : Int}
    (hb : ∀ sp ∈ kept, sp.2.2.2 < L) (hc : L ≤ c) :
    bwdLoop kept e c = [] := by
  by_cases hce : c ≤ e
  · apply bwdLoop_dead hce
    rw [findContainingOut, List.find?_eq_none]
    intro sp hsp
    have := hb sp hsp
    simp only [Bool.and_eq_true, decide_eq_true_eq]
    omega
  · exact bwdLoop_stop (by omega)

/-- When `L` bounds every kept output end and `e ≥ L - 1`, the backward
loop over `[c, e]` behaves exactly like the loop over `[c, L-1]`: the part
of the query above the top of the output range is silently discarded. -/
theorem bwdLoop_truncate {kept : List Span} {L : Int}
    (hb : ∀ sp ∈ kept, sp.2.2.2 < L) :
    ∀ (n : Nat) (e c : Int), L - 1 ≤ e → (L - c).toNat ≤ n →
      bwdLoop kept e c = bwdLoop kept (L - 1) c := by
  intro n
  induction n with
  | zero =>
      intro e c he hn
      have hc : L ≤ c := by omega
      rw [bwdLoop_dead_ge hb hc, bwdLoop_dead_ge hb hc]
  | succ m ih =>
      intro e c he hn
      by_cases hc : L ≤ c
      · rw [bwdLoop_dead_ge hb hc, bwdLoop_dead_ge hb hc]
      · have hce : c ≤ e := by omega
        have hcl : c ≤ L - 1 := by omega
        rcases hfind : findContainingOut kept c with - | ⟨si, ei, so, eo⟩
        · rw [bwdLoop_dead hce hfind, bwdLoop_dead hcl hfind]
        · have hco := findContainingOut_some hfind
          have hsoc : so ≤ c := hco.1
          have hceo : c ≤ eo := hco.2.1
          have heo : eo < L := hb _ hco.2.2
          rw [bwdLoop_found hce hfind, bwdLoop_found hcl hfind]
          have hmin1 : min e eo = eo := by omega
          have hmin2 : min (L - 1) eo = eo := by omega
          rw [hmin1, hmin2]
          congr 1
          exact ih e (eo + 1) he (by omega)

/-- C5 (amended): calling `project_intervals_output_to_input` with an
interval touching an index outside `[0, Lout-1]` does not fail: the call
returns normally and silently drops out-of-range samples.  Precisely:
(1) an interval whose start lies in no kept output span contributes nothing
at all — the loop exits at the first uncovered cursor, discarding even any
in-range remainder; (2) whenever `L` bounds every kept output end and
`e ≥ L - 1`, querying `[(s, e)]` returns exactly the result of querying the
truncation `[(s, L-1)]` — so a query extending past the top of the output
range behaves like its in-range truncation. -/
theorem c5_backward_out_of_range_dropped :
    (∀ (m : IndexMap) (s e : Int),
      (∀ sp ∈ m.kept, s < sp.2.2.1 ∨ sp.2.2.2 < s) →
      m.project_intervals_output_to_input [(s, e)] = []) ∧
    (∀ (m : IndexMap) (L s e : Int),
      (∀ sp ∈ m.kept, sp.2.2.2 < L) → L - 1 ≤ e →
      m.project_intervals_output_to_input [(s, e)] =
        m.project_intervals_output_to_input [(s, L - 1)]) := by
  constructor
  · intro m s e h
    rw [IndexMap.project_intervals_output_to_input, if_neg (by simp)]
    rw [catMap, catMap, List.append_nil]
    by_cases hse : s ≤ e
    · have hnone : findContainingOut m.kept s = none := by
        rw [findContainingOut, List.find?_eq_none]
        intro sp hsp
        have := h sp hsp
        simp only [Bool.and_eq_true, decide_eq_true_eq]
        omega
      rw [bwdLoop_dead hse hnone]
      exact normalize_nil_none
    · rw [bwdLoop_stop (by omega)]
      exact normalize_nil_none
  · intro m L s e hb he
    have ht := bwdLoop_truncate hb (L - s).toNat e s he (by omega)
    rw [IndexMap.project_intervals_output_to_input, if_neg (by simp),
      IndexMap.project_intervals_output_to_input, if_neg (by simp)]
    show normalize_intervals (bwdLoop m.kept e s ++ catMap _ []) none =
      normalize_intervals (bwdLoop m.kept (L - 1) s ++ catMap _ []) none
    rw [ht]

/-- Witness for C5 on the map removing `[(2,4)]` from length 10
(`Lout = 7`): the start-straddling query `[(-1,3)]` is dropped entirely,
and the top-straddling query `[(0,8)]` equals its truncation `[(0,6)]`. -/
theorem c5_backward_witness :
    ((∀ sp ∈ (IndexMap.from_removed_ranges [(2, 4)] 10).kept,
        (-1 : Int) < sp.2.2.1 ∨ sp.2.2.2 < -1) ∧
      (IndexMap.from_removed_ranges [(2, 4)] 10).project_intervals_output_to_input
        [(-1, 3)] = []) ∧
    ((∀ sp ∈ (IndexMap.from_removed_ranges [(2, 4)] 10).kept, sp.2.2.2 < 7) ∧
      (7 : Int) - 1 ≤ 8 ∧
      (IndexMap.from_removed_ranges [(2, 4)] 10).project_intervals_output_to_input
        [(0, 8)] =
      (IndexMap.from_removed_ranges [(2, 4)] 10).project_intervals_output_to_input
        [(0, 7 - 1)]) :=
  ⟨⟨by decide, c5_backward_out_of_range_dropped.1
      (IndexMap.from_removed_ranges [(2, 4)] 10) (-1) 3 (by decide)⟩,
    ⟨by decide, by decide,
      c5_backward_out_of_range_dropped.2
        (IndexMap.from_removed_ranges [(2, 4)] 10) 7 0 8 (by decide) (by decide)⟩⟩

/-- C6: on every map satisfying the data-model invariant, forward projection
of an input interval is exactly the normalized list of translated surviving
sub-runs; an interval meeting no kept span (entirely inside removed
regions) maps to the empty set; and on the map removing `[(2,4)]` from
length 10, `project_intervals_input_to_output [(3,3)]` returns `[]`. -/
theorem c6_forward_surviving_runs :
    (∀ m : IndexMap, m.Valid → ∀ s e : Int,
      m.project_intervals_input_to_output [(s, e)] =
        normalize_intervals (survivingRuns m.kept s e) none) ∧
    (∀ m : IndexMap, m.Valid → ∀ s e : Int,
      (∀ sp ∈ m.kept, e < sp.1 ∨ sp.2.1 < s) →
      m.project_intervals_input_to_output [(s, e)] = []) ∧
    (IndexMap.from_removed_ranges [(2, 4)] 10).project_intervals_input_to_output
      [(3, 3)] = [] := by
  have hmain : ∀ m : IndexMap, m.Valid → ∀ s e : Int,
      m.project_intervals_input_to_output [(s, e)] =
        normalize_intervals (survivingRuns m.kept s e) none := by
    intro m hV s e
    obtain ⟨hwf, hic, _⟩ := hV
    have hdisj := inputChain_pairwise (fun sp h => (spansWFB_mem hwf sp h).1) hic
    have hsorted := pairwise_sorted_of_wf (fun sp h => (spansWFB_mem hwf sp h).1) hdisj
    exact project_single_runs hsorted hdisj s e
  refine ⟨hmain, ?_, by decide⟩
  intro m hV s e hmiss
  rw [hmain m hV s e]
  have hnil : survivingRuns m.kept s e = [] := by
    rw [survivingRuns, List.filterMap_eq_nil_iff]
    intro sp hsp
    rcases hmiss sp hsp with h | h
    · exact chunkOf_none_right h
    · exact chunkOf_none_left h
  rw [hnil, normalize_nil_none]

/-- Witness for C6 at the map removing `[(2,4)]` from length 10, the partly
surviving interval `[(1,6)]`, and the fully removed interval `[(2,4)]`. -/
theorem c6_forward_witness :
    (IndexMap.from_removed_ranges [(2, 4)] 10).Valid ∧
    (IndexMap.from_removed_ranges [(2, 4)] 10).project_intervals_input_to_output
      [(1, 6)] =
      normalize_intervals
        (survivingRuns (IndexMap.from_removed_ranges [(2, 4)] 10).kept 1 6) none ∧
    (∀ sp ∈ (IndexMap.from_removed_ranges [(2, 4)] 10).kept,
      (4 : Int) < sp.1 ∨ sp.2.1 < 2) ∧
    (IndexMap.from_removed_ranges [(2, 4)] 10).project_intervals_input_to_output
      [(2, 4)] = [] :=
  ⟨by decide,
    c6_forward_surviving_runs.1 (IndexMap.from_removed_ranges [(2, 4)] 10) (by decide) 1 6,
    by decide,
    c6_forward_surviving_runs.2.1 (IndexMap.from_removed_ranges [(2, 4)] 10) (by decide)
      2 4 (by decide)⟩

/-- C7 counterexample: the claim states `invert_to_kept [] 0 = []`, but the
code returns the degenerate interval `[(0,-1)]` at length 0. -/
theorem c7_invert_empty_counterexample :
    invert_to_kept [] 0 = [(0, -1)] ∧ invert_to_kept [] 0 ≠ [] := by
  refine ⟨by decide, by decide⟩

/-- C7 (amended): the complement of an empty removed set is the single
interval `[(0, L-1)]` for every length `L`; in particular at `L = 0` it is
the degenerate `[(0,-1)]`, not `[]`. -/
theorem c7_invert_empty (L : Int) : invert_to_kept [] L = [(0, L - 1)] := rfl

/-- C8 counterexample: the claim quantifies over every bound `L`, but at
`L = 0` clamping produces the reversed pair `(0,-1)`, violating
`start ≤ end`. -/
theorem c8_normalize_counterexample :
    normalize_intervals [(-1, 0)] (some 0) = [(0, -1)] ∧
    ¬ (∀ p ∈ normalize_intervals [(-1, 0)] (some 0), p.1 ≤ p.2) := by
  refine ⟨by decide, by decide⟩

/-- C8 (amended): for every input list and every bound `L ≥ 1`, the
normalized result is sorted ascending by start, every interval satisfies
`start ≤ end` and lies within `[0, L-1]`, and consecutive intervals neither
touch nor overlap. -/
theorem c8_normalize_invariants (intervals : List Interval) (L : Int) (hL : 1 ≤ L) :
    (∀ p ∈ normalize_intervals intervals (some L),
      0 ≤ p.1 ∧ p.1 ≤ p.2 ∧ p.2 ≤ L - 1) ∧
    List.Chain' (fun p q => p.1 < q.1) (normalize_intervals intervals (some L)) ∧
    List.Chain' (fun p q => p.2 + 1 < q.1) (normalize_intervals intervals (some L)) := by
  have h := normalize_some_good intervals hL
  exact ⟨h.1, sorted_of_bounds_chain (fun p hp => (h.1 p hp).2.1) h.2, h.2⟩

/-- Witness for C8 at an unsorted overlapping reversed input and bound 5. -/
theorem c8_normalize_witness :
    (1 : Int) ≤ 5 ∧
    ((∀ p ∈ normalize_intervals [(8, 2), (0, 1), (-3, 0)] (some 5),
        0 ≤ p.1 ∧ p.1 ≤ p.2 ∧ p.2 ≤ 5 - 1) ∧
      List.Chain' (fun p q => p.1 < q.1)
        (normalize_intervals [(8, 2), (0, 1), (-3, 0)] (some 5)) ∧
      List.Chain' (fun p q => p.2 + 1 < q.1)
        (normalize_intervals [(8, 2), (0, 1), (-3, 0)] (some 5))) :=
  ⟨by decide, c8_normalize_invariants [(8, 2), (0, 1), (-3, 0)] 5 (by decide)⟩

/-- C9: `merge_intervals` merges two consecutive sorted intervals exactly
when the next start is at most the previous end plus the gap plus one;
concretely it merges `[(0,5),(6,10)]` at gap 0, leaves `[(0,5),(8,10)]`
unmerged at gap 0, and merges `[(0,5),(8,10)]` at every gap at least 2. -/
theorem c9_merge_gap :
    (∀ a b c d g : Int, a ≤ c →
      merge_intervals [(a, b), (c, d)] g =
        if c ≤ b + g + 1 then [(a, max b d)] else [(a, b), (c, d)]) ∧
    merge_intervals [(0, 5), (6, 10)] 0 = [(0, 10)] ∧
    merge_intervals [(0, 5), (8, 10)] 0 = [(0, 5), (8, 10)] ∧
    (∀ g : Int, 2 ≤ g → merge_intervals [(0, 5), (8, 10)] g = [(0, 10)]) := by
  have hgen : ∀ a b c d g : Int, a ≤ c →
      merge_intervals [(a, b), (c, d)] g =
        if c ≤ b + g + 1 then [(a, max b d)] else [(a, b), (c, d)] := by
    intro a b c d g hac
    have hsort : sortByStart [(a, b), (c, d)] = [(a, b), (c, d)] := by
      rw [sortByStart, sortByStart, sortByStart, insertByStart, insertByStart,
        if_pos (show ((a, b) : Interval).1 ≤ ((c, d) : Interval).1 from hac)]
    rw [merge_intervals, if_neg (by simp), hsort]
    show gapMergeLoop g a b [(c, d)] =
      if c ≤ b + g + 1 then [(a, max b d)] else [(a, b), (c, d)]
    rw [gapMergeLoop]
    split_ifs with hm
    · rw [gapMergeLoop]
    · rw [gapMergeLoop]
  refine ⟨hgen, by decide, by decide, ?_⟩
  intro g hg
  rw [hgen 0 5 8 10 g (by decide), if_pos (by omega)]
  rfl

/-- Witness for C9 at the touching pair with gap 0 and the gapped pair with
gap 2. -/
theorem c9_merge_gap_witness :
    ((0 : Int) ≤ 6 ∧ merge_intervals [(0, 5), (6, 10)] 0 =
      if (6 : Int) ≤ 5 + 0 + 1 then [(0, max 5 10)] else [(0, 5), (6, 10)]) ∧
    ((2 : Int) ≤ 2 ∧ merge_intervals [(0, 5), (8, 10)] 2 = [(0, 10)]) :=
  ⟨⟨by decide, c9_merge_gap.1 0 5 6 10 0 (by decide)⟩,
    ⟨by decide, c9_merge_gap.2.2.2 2 (by decide)⟩⟩

/-- C10: `remove_intervals_and_build_map` returns the in-order concatenation
of the signal restricted to the kept intervals (the complement of the
normalized-and-clamped removed intervals), its length is the signal length
minus the number of removed samples, and the returned map's kept spans have
exactly those kept intervals as input sides. -/
theorem c10_remove_and_build (α : Type) (x : List α) (removed : List Interval) :
    (remove_intervals_and_build_map x removed).1 =
      catSlices x (invert_to_kept (normalize_intervals removed (some (x.length : Int)))
        (x.length : Int)) ∧
    ((remove_intervals_and_build_map x removed).1.length : Int) =
      (x.length : Int) - sumLens (normalize_intervals removed (some (x.length : Int))) ∧
    (remove_intervals_and_build_map x removed).2.kept.map (fun sp => (sp.1, sp.2.1)) =
      invert_to_kept (normalize_intervals removed (some (x.length : Int)))
        (x.length : Int) :=
  remove_intervals_spec x removed

end EcgPipeline

